import Mathlib

/-
Verification of the transformation engine in `setup.mjs` (react-to-electron).

The development shallowly embeds the script's components:
  * JavaScript objects used as string-keyed maps (`scripts`, `devDependencies`,
    `dependencies` of package.json) are association lists in insertion order,
    with JavaScript truthiness for the `!obj[k]` tests (absent or empty string
    are falsy).
  * The filesystem is a tree of named nodes (`FsNode`); `safeWrite`,
    `moveSrcToUi`, `patchIndexHtml`, `ensurePublicIcons` and the main IIFE are
    functions on that tree.  Paths are component lists.
  * The regular expression used by `patchIndexHtml` is embedded as a
    backtracking matcher with JavaScript's leftmost, greedy semantics.
Fallible operations return `Except String`; `process.exit(1)` (the `fail`
helper) is the error channel of the pipeline.
-/

/- ### JavaScript string-keyed objects (insertion-ordered association lists) -/

/-- `obj[k]` : first binding of `k`, if any. -/
def jsGet : List (String × String) → String → Option String
  | [], _ => none
  | p :: m, k => if p.1 = k then some p.2 else jsGet m k

/-- `k in obj` (as a key test). -/
def hasKey : List (String × String) → String → Bool
  | [], _ => false
  | p :: m, k => if p.1 = k then true else hasKey m k

/-- `obj[k] = v` : update in place if present (keeping position), else append —
JavaScript property insertion order. -/
def jsSet (m : List (String × String)) (k v : String) : List (String × String) :=
  if hasKey m k then m.map (fun p => if p.1 = k then (k, v) else p)
  else m ++ [(k, v)]

/-- Truthiness of `obj[k]` for string values: present and nonempty. -/
def truthy (m : List (String × String)) (k : String) : Bool :=
  match jsGet m k with
  | some v => if v = "" then false else true
  | none => false

/-- Truthiness of `obj && obj[k]` when the object itself may be undefined. -/
def truthyOpt (m : Option (List (String × String))) (k : String) : Bool :=
  match m with
  | some l => truthy l k
  | none => false

@[simp] theorem jsGet_nil (k : String) : jsGet [] k = none := rfl

@[simp] theorem jsGet_cons (p : String × String) (m : List (String × String)) (k : String) :
    jsGet (p :: m) k = if p.1 = k then some p.2 else jsGet m k := rfl

@[simp] theorem hasKey_nil (k : String) : hasKey [] k = false := rfl

@[simp] theorem hasKey_cons (p : String × String) (m : List (String × String)) (k : String) :
    hasKey (p :: m) k = if p.1 = k then true else hasKey m k := rfl

theorem hasKey_eq_isSome (m : List (String × String)) (k : String) :
    hasKey m k = (jsGet m k).isSome := by
  induction m with
  | nil => rfl
  | cons p m ih =>
    by_cases h : p.1 = k <;> simp [h, ih]

theorem hasKey_iff_mem (m : List (String × String)) (k : String) :
    hasKey m k = true ↔ k ∈ m.map Prod.fst := by
  induction m with
  | nil => simp
  | cons p m ih =>
    by_cases h : p.1 = k
    · simp [h]
    · have h' : ¬ k = p.1 := fun e => h e.symm
      simp [h, h', ih]

theorem jsGet_map_update_self (m : List (String × String)) (k v : String)
    (hk : hasKey m k = true) :
    jsGet (m.map (fun p => if p.1 = k then (k, v) else p)) k = some v := by
  induction m with
  | nil => simp at hk
  | cons p m ih =>
    by_cases h : p.1 = k
    · simp [h]
    · simp only [hasKey_cons, h, if_false] at hk
      simpa [h] using ih hk

theorem jsGet_map_update_ne (m : List (String × String)) (k v k' : String) (h : k' ≠ k) :
    jsGet (m.map (fun p => if p.1 = k then (k, v) else p)) k' = jsGet m k' := by
  induction m with
  | nil => rfl
  | cons p m ih =>
    by_cases hp : p.1 = k
    · have hne : ¬ k = k' := fun hh => h hh.symm
      simp [hp, hne, ih]
    · by_cases hp' : p.1 = k' <;> simp [hp, hp', h, ih]

theorem jsGet_append_single_ne (m : List (String × String)) (k v k' : String) (h : k' ≠ k) :
    jsGet (m ++ [(k, v)]) k' = jsGet m k' := by
  induction m with
  | nil =>
    have hne : ¬ k = k' := fun hh => h hh.symm
    simp [jsGet, hne]
  | cons p m ih =>
    by_cases hp : p.1 = k' <;> simp [hp, ih]

theorem jsGet_append_single_self (m : List (String × String)) (k v : String)
    (h : jsGet m k = none) : jsGet (m ++ [(k, v)]) k = some v := by
  induction m with
  | nil => simp [jsGet]
  | cons p m ih =>
    by_cases hp : p.1 = k
    · simp [hp] at h
    · simp only [jsGet_cons, hp, if_false] at h
      simpa [hp] using ih h

theorem jsGet_jsSet_self (m : List (String × String)) (k v : String) :
    jsGet (jsSet m k v) k = some v := by
  unfold jsSet
  by_cases hk : hasKey m k
  · simp [hk, jsGet_map_update_self m k v hk]
  · have hnone : jsGet m k = none := by
      cases h : jsGet m k with
      | none => rfl
      | some w => rw [hasKey_eq_isSome, h] at hk; simp at hk
    simp [hk, jsGet_append_single_self m k v hnone]

theorem jsGet_jsSet_ne (m : List (String × String)) (k v k' : String) (h : k' ≠ k) :
    jsGet (jsSet m k v) k' = jsGet m k' := by
  unfold jsSet
  by_cases hk : hasKey m k
  · simp [hk, jsGet_map_update_ne m k v k' h]
  · simp [hk, jsGet_append_single_ne m k v k' h]

theorem truthy_eq_false_iff (m : List (String × String)) (k : String) :
    truthy m k = false ↔ (jsGet m k = none ∨ jsGet m k = some "") := by
  unfold truthy
  cases h : jsGet m k with
  | none => simp
  | some v => by_cases hv : v = "" <;> simp [hv]

theorem truthy_eq_true_iff (m : List (String × String)) (k : String) :
    truthy m k = true ↔ ∃ v, jsGet m k = some v ∧ v ≠ "" := by
  unfold truthy
  cases h : jsGet m k with
  | none => simp
  | some v => by_cases hv : v = "" <;> simp [hv]

/-- Writing back the value a key already holds is the identity when keys are
unique (association lists parsed from JSON objects have unique keys). -/
theorem jsSet_eq_self (m : List (String × String)) (k v : String)
    (hnd : (m.map Prod.fst).Nodup) (h : jsGet m k = some v) : jsSet m k v = m := by
  unfold jsSet
  have hk : hasKey m k = true := by
    rw [hasKey_eq_isSome, h]; rfl
  simp only [hk, if_true]
  induction m with
  | nil => simp at h
  | cons p m ih =>
    simp only [List.map_cons, List.nodup_cons] at hnd
    by_cases hp : p.1 = k
    · simp only [jsGet_cons, hp, if_true, Option.some.injEq] at h
      have hrest : ∀ q ∈ m, (if q.1 = k then (k, v) else q) = id q := by
        intro q hq
        have hq1 : ¬ q.1 = k := by
          intro hqk
          apply hnd.1
          rw [hp, ← hqk]
          exact List.mem_map_of_mem Prod.fst hq
        simp [hq1]
      have hpk : (if p.1 = k then (k, v) else p) = p := by
        obtain ⟨a, b⟩ := p
        simp only at hp h
        simp [hp, h, Prod.ext_iff]
      rw [List.map_cons, hpk, List.map_congr_left hrest, List.map_id]
    · simp only [jsGet_cons, hp, if_false] at h
      have hk' : hasKey m k = true := by rw [hasKey_eq_isSome, h]; rfl
      have hpk : (if p.1 = k then (k, v) else p) = p := by simp [hp]
      rw [List.map_cons, hpk, ih hnd.2 h hk']

theorem jsSet_keys_nodup (m : List (String × String)) (k v : String)
    (hnd : (m.map Prod.fst).Nodup) : ((jsSet m k v).map Prod.fst).Nodup := by
  unfold jsSet
  by_cases hk : hasKey m k
  · simp only [hk, if_true]
    have hkeys : (m.map (fun p => if p.1 = k then (k, v) else p)).map Prod.fst
        = m.map Prod.fst := by
      rw [List.map_map]
      apply List.map_congr_left
      intro p _
      by_cases hp : p.1 = k <;> simp [hp]
    rw [hkeys]; exact hnd
  · rw [if_neg hk]
    have hknot : k ∉ m.map Prod.fst := fun hmem => hk ((hasKey_iff_mem m k).mpr hmem)
    rw [List.map_append]
    refine List.Nodup.append hnd (by simp) ?_
    intro a ha hb
    simp only [List.map_cons, List.map_nil, List.mem_singleton] at hb
    exact hknot (hb ▸ ha)

/- ### Structured document merger (src/setup.mjs `patchPackageJson`, lines 408-449) -/

/-- Key under which a conflicting pre-existing script is preserved:
`` `_backup_${k}` ``. -/
def bakName (k : String) : String := "_backup_" ++ k

def emptyStr : String := ""

/-- The `"dev"` script value (contains embedded quotes). -/
def devScriptVal : String := "concurrently \"npm run dev:react\" \"npm run dev:electron\""

/-- `DESIRED_SCRIPTS` of setup.mjs, in source order. -/
def DESIRED_SCRIPTS : List (String × String) :=
  [(r"dev:react", r"vite"),
   (r"dev:electron", r"electron ."),
   (r"dev", devScriptVal),
   (r"lint", r"eslint ."),
   (r"preview", r"vite preview"),
   (r"build", r"tsc -b && vite build"),
   (r"electron:tsc", r"tsc -p tsconfig.electron.json"),
   (r"electron:dev", r"cross-env NODE_ENV=development npm run electron:tsc && vite --config vite.electron.config.ts"),
   (r"electron:build", r"cross-env NODE_ENV=production npm run electron:tsc && vite build --config vite.renderer.config.ts"),
   (r"build:electron", r"npx electron-builder --config electron-builder.yml --dir"),
   (r"package", r"npx electron-builder --config electron-builder.yml")]

/-- `DESIRED_DEVDEPS` of setup.mjs, in source order. -/
def DESIRED_DEVDEPS : List (String × String) :=
  [(r"cross-env", r"^10.0.0"),
   (r"electron", r"^32.1.2"),
   (r"electron-builder", r"^25.0.5"),
   (r"vite", r"^5.4.2"),
   (r"vite-plugin-electron", r"^0.29.0"),
   (r"vite-plugin-electron-renderer", r"^0.14.6"),
   (r"concurrently", r"^8.2.2"),
   (r"wait-on", r"^7.0.1"),
   (r"typescript", r"^5.2.0")]

/-- One iteration of the script-merging loop of `patchPackageJson`:
```
if (!pkg.scripts[k]) { pkg.scripts[k] = v; }
else if (pkg.scripts[k] !== v) {
  const bakKey = `_backup_${k}`;
  if (!pkg.scripts[bakKey]) pkg.scripts[bakKey] = pkg.scripts[k];
  pkg.scripts[k] = v;
}
``` -/
def mergeScriptEntry (scripts : List (String × String)) (d : String × String) :
    List (String × String) :=
  if truthy scripts d.1 then
    if jsGet scripts d.1 = some d.2 then scripts
    else
      let old := match jsGet scripts d.1 with
        | some w => w
        | none => ""
      let s1 := if truthy scripts (bakName d.1) then scripts
                else jsSet scripts (bakName d.1) old
      jsSet s1 d.1 d.2
  else jsSet scripts d.1 d.2

/-- The full script-merging loop (`for (const [k, v] of Object.entries(DESIRED_SCRIPTS))`). -/
def mergeScripts (desired scripts : List (String × String)) : List (String × String) :=
  desired.foldl mergeScriptEntry scripts

/-- One iteration of the devDependencies loop of `patchPackageJson`:
```
if (!pkg.devDependencies[dep] && !(pkg.dependencies && pkg.dependencies[dep])) {
  pkg.devDependencies[dep] = ver;
}
``` -/
def mergeDepEntry (deps : Option (List (String × String)))
    (dev : List (String × String)) (d : String × String) : List (String × String) :=
  if truthy dev d.1 then dev
  else if truthyOpt deps d.1 then dev
  else jsSet dev d.1 d.2

/-- The full devDependencies-merging loop. -/
def mergeDevDeps (desired dev : List (String × String))
    (deps : Option (List (String × String))) : List (String × String) :=
  desired.foldl (mergeDepEntry deps) dev

/-- The manifest document (the package.json fields the engine reads/writes). -/
structure Pkg where
  type : Option String
  main : Option String
  scripts : Option (List (String × String))
  dependencies : Option (List (String × String))
  devDependencies : Option (List (String × String))
deriving DecidableEq

def MAIN_FIELD_DEFAULT : String := "src/electron/main"

def moduleStr : String := "module"

/-- The pure manifest transformation performed by `patchPackageJson`
(JSON parse/stringify is abstracted as the identity on the structured form). -/
def patchPkg (pkg : Pkg) : Pkg :=
  let main' := match pkg.main with
    | some m => if m = "" then some MAIN_FIELD_DEFAULT else some m
    | none => some MAIN_FIELD_DEFAULT
  let scripts' := mergeScripts DESIRED_SCRIPTS (pkg.scripts.getD [])
  let dev' := mergeDevDeps DESIRED_DEVDEPS (pkg.devDependencies.getD []) pkg.dependencies
  { type := some moduleStr, main := main', scripts := some scripts',
    dependencies := pkg.dependencies, devDependencies := some dev' }

theorem bakName_ne (k : String) : bakName k ≠ k := by
  intro h
  have hl := congrArg String.length h
  rw [bakName, String.length_append] at hl
  have h8 : ("_backup_" : String).length = 8 := rfl
  omega

theorem mergeScripts_single (s : List (String × String)) (d : String × String) :
    mergeScripts [d] s = mergeScriptEntry s d := rfl

theorem mergeScriptEntry_absent (s : List (String × String)) (d : String × String)
    (h : truthy s d.1 = false) : mergeScriptEntry s d = jsSet s d.1 d.2 := by
  simp [mergeScriptEntry, h]

theorem mergeScriptEntry_same (s : List (String × String)) (d : String × String)
    (h : truthy s d.1 = true) (h2 : jsGet s d.1 = some d.2) : mergeScriptEntry s d = s := by
  simp [mergeScriptEntry, h, h2]

theorem mergeScriptEntry_demote (s : List (String × String)) (d : String × String) (w : String)
    (h : truthy s d.1 = true) (hw : jsGet s d.1 = some w) (h2 : w ≠ d.2)
    (h3 : truthy s (bakName d.1) = false) :
    mergeScriptEntry s d = jsSet (jsSet s (bakName d.1) w) d.1 d.2 := by
  simp [mergeScriptEntry, h, hw, h2, h3]

theorem mergeScriptEntry_keep_bak (s : List (String × String)) (d : String × String)
    (w : String) (h : truthy s d.1 = true) (hw : jsGet s d.1 = some w) (h2 : w ≠ d.2)
    (h3 : truthy s (bakName d.1) = true) :
    mergeScriptEntry s d = jsSet s d.1 d.2 := by
  simp [mergeScriptEntry, h, hw, h2, h3]

/-- C4 counterexample: with existing script `"build": ""` and desired `"build": "B"`
(`"" != "B"`), the merge installs the desired value but creates no
`_backup_build` key — the claim's conclusion `scripts._backup_build == A` fails
for `A = ""`, because `!pkg.scripts[k]` treats the empty string as absent. -/
theorem mergeScripts_demotion_counterexample :
    emptyStr ≠ r"B" ∧
    jsGet (mergeScripts [(r"build", r"B")] [(r"build", emptyStr)]) (r"build") = some (r"B") ∧
    jsGet (mergeScripts [(r"build", r"B")] [(r"build", emptyStr)]) (bakName (r"build")) = none := by
  refine ⟨by decide, by decide, by decide⟩

/-- C4 (amended): given existing `"build": A` with `A` nonempty, `A != B`, no
pre-existing `_backup_build`, and unique keys, one merge of desired
`("build", B)` yields `scripts.build == B` and `scripts._backup_build == A`,
and a second merge with the same desired value is the identity. -/
theorem mergeScripts_conflict_demotion (s : List (String × String)) (A B : String)
    (hnd : (s.map Prod.fst).Nodup)
    (hA : jsGet s (r"build") = some A) (hA0 : A ≠ "") (hAB : A ≠ B)
    (hbak : jsGet s (bakName (r"build")) = none) :
    jsGet (mergeScripts [(r"build", B)] s) (r"build") = some B ∧
    jsGet (mergeScripts [(r"build", B)] s) (bakName (r"build")) = some A ∧
    mergeScripts [(r"build", B)] (mergeScripts [(r"build", B)] s)
      = mergeScripts [(r"build", B)] s := by
  have hb : bakName (r"build") ≠ (r"build") := bakName_ne _
  have htr : truthy s (r"build") = true := (truthy_eq_true_iff s _).mpr ⟨A, hA, hA0⟩
  have htrb : truthy s (bakName (r"build")) = false :=
    (truthy_eq_false_iff s _).mpr (Or.inl hbak)
  have hstep : mergeScripts [((r"build"), B)] s
      = jsSet (jsSet s (bakName (r"build")) A) (r"build") B := by
    rw [mergeScripts_single]
    exact mergeScriptEntry_demote s ((r"build"), B) A htr hA hAB htrb
  set m1 := jsSet (jsSet s (bakName (r"build")) A) (r"build") B with hm1
  have hg1 : jsGet m1 (r"build") = some B := jsGet_jsSet_self _ _ _
  have hg2 : jsGet m1 (bakName (r"build")) = some A := by
    rw [hm1, jsGet_jsSet_ne _ _ _ _ hb]
    exact jsGet_jsSet_self _ _ _
  have hnd1 : (m1.map Prod.fst).Nodup :=
    jsSet_keys_nodup _ _ _ (jsSet_keys_nodup _ _ _ hnd)
  refine ⟨hstep ▸ hg1, hstep ▸ hg2, ?_⟩
  rw [hstep, mergeScripts_single]
  by_cases hB : B = ""
  · have htr1 : truthy m1 (r"build") = false :=
      (truthy_eq_false_iff m1 _).mpr (Or.inr (hB ▸ hg1))
    rw [mergeScriptEntry_absent m1 _ htr1]
    exact jsSet_eq_self m1 _ B hnd1 hg1
  · have htr1 : truthy m1 (r"build") = true := (truthy_eq_true_iff m1 _).mpr ⟨B, hg1, hB⟩
    exact mergeScriptEntry_same m1 _ htr1 hg1

/-- Witness for `mergeScripts_conflict_demotion` at a concrete input. -/
theorem mergeScripts_conflict_demotion_witness :
    jsGet (mergeScripts [(r"build", r"B")] [(r"build", r"A")]) (r"build") = some (r"B") ∧
    jsGet (mergeScripts [(r"build", r"B")] [(r"build", r"A")]) (bakName (r"build"))
      = some (r"A") ∧
    mergeScripts [(r"build", r"B")] (mergeScripts [(r"build", r"B")] [(r"build", r"A")])
      = mergeScripts [(r"build", r"B")] [(r"build", r"A")] :=
  mergeScripts_conflict_demotion [(r"build", r"A")] (r"A") (r"B")
    (by decide) (by decide) (by decide) (by decide) (by decide)

/-- C10: the merge treats an empty-string script value as absent.  (1) If
`scripts[k] == ""`, the desired value is installed at `k` and the
`_backup_<k>` binding is left exactly as it was (no demotion, the empty
original is not preserved).  (2) If `scripts[k] == a` with `a` nonempty and
different from the desired `v`, and `scripts[_backup_<k>] == ""`, the
empty-string backup is overwritten with `a`. -/
theorem mergeScripts_empty_treated_absent :
    (∀ (s : List (String × String)) (k v : String), jsGet s k = some "" →
      jsGet (mergeScripts [(k, v)] s) k = some v ∧
      jsGet (mergeScripts [(k, v)] s) (bakName k) = jsGet s (bakName k)) ∧
    (∀ (s : List (String × String)) (k a v : String), jsGet s k = some a → a ≠ "" →
      a ≠ v → jsGet s (bakName k) = some "" →
      jsGet (mergeScripts [(k, v)] s) (bakName k) = some a) := by
  constructor
  · intro s k v h
    have htr : truthy s k = false := (truthy_eq_false_iff s k).mpr (Or.inr h)
    rw [mergeScripts_single, mergeScriptEntry_absent s (k, v) htr]
    exact ⟨jsGet_jsSet_self _ _ _, jsGet_jsSet_ne _ _ _ _ (bakName_ne k)⟩
  · intro s k a v ha ha0 hav hbak
    have htr : truthy s k = true := (truthy_eq_true_iff s k).mpr ⟨a, ha, ha0⟩
    have htrb : truthy s (bakName k) = false :=
      (truthy_eq_false_iff s _).mpr (Or.inr hbak)
    rw [mergeScripts_single, mergeScriptEntry_demote s (k, v) a htr ha hav htrb,
      jsGet_jsSet_ne _ _ _ _ (bakName_ne k)]
    exact jsGet_jsSet_self _ _ _

/-- Witness for `mergeScripts_empty_treated_absent` at concrete inputs. -/
theorem mergeScripts_empty_treated_absent_witness :
    (jsGet (mergeScripts [(r"build", r"B")] [(r"build", emptyStr)]) (r"build")
        = some (r"B") ∧
      jsGet (mergeScripts [(r"build", r"B")] [(r"build", emptyStr)]) (bakName (r"build"))
        = jsGet [((r"build" : String), emptyStr)] (bakName (r"build"))) ∧
    jsGet (mergeScripts [(r"build", r"B")]
        [(r"build", r"A"), (bakName (r"build"), emptyStr)]) (bakName (r"build"))
      = some (r"A") :=
  ⟨mergeScripts_empty_treated_absent.1 [((r"build"), emptyStr)] (r"build") (r"B")
      (by decide),
   mergeScripts_empty_treated_absent.2 [((r"build"), (r"A")), (bakName (r"build"), emptyStr)]
      (r"build") (r"A") (r"B") (by decide) (by decide) (by decide) (by decide)⟩

theorem mergeScriptEntry_bak_cases (s : List (String × String)) (d : String × String)
    (k' : String) (h1 : k' ≠ d.1) :
    jsGet (mergeScriptEntry s d) k' = jsGet s k' ∨
    (k' = bakName d.1 ∧ truthy s (bakName d.1) = false ∧
      ∃ w, jsGet s d.1 = some w ∧ w ≠ "" ∧ jsGet (mergeScriptEntry s d) k' = some w) := by
  by_cases htr : truthy s d.1
  · obtain ⟨w, hw, hw0⟩ := (truthy_eq_true_iff s d.1).mp htr
    by_cases heq : jsGet s d.1 = some d.2
    · left
      rw [mergeScriptEntry_same s d htr heq]
    · have hwne : w ≠ d.2 := by
        intro he
        exact heq (he ▸ hw)
      by_cases htrb : truthy s (bakName d.1)
      · left
        rw [mergeScriptEntry_keep_bak s d w htr hw hwne htrb]
        exact jsGet_jsSet_ne _ _ _ _ h1
      · rw [mergeScriptEntry_demote s d w htr hw hwne (by simpa using htrb)]
        by_cases hk2 : k' = bakName d.1
        · right
          refine ⟨hk2, by simpa using htrb, w, hw, hw0, ?_⟩
          rw [jsGet_jsSet_ne _ _ _ _ h1, hk2]
          exact jsGet_jsSet_self _ _ _
        · left
          rw [jsGet_jsSet_ne _ _ _ _ h1, jsGet_jsSet_ne _ _ _ _ hk2]
  · left
    rw [mergeScriptEntry_absent s d (by simpa using htr)]
    exact jsGet_jsSet_ne _ _ _ _ h1

theorem mergeScriptEntry_frame (s : List (String × String)) (d : String × String)
    (k' : String) (h1 : k' ≠ d.1) (h2 : k' ≠ bakName d.1) :
    jsGet (mergeScriptEntry s d) k' = jsGet s k' := by
  rcases mergeScriptEntry_bak_cases s d k' h1 with h | ⟨hk, _⟩
  · exact h
  · exact absurd hk h2

theorem mergeScriptEntry_self_cases (s : List (String × String)) (d : String × String)
    (v0 : String) (h : jsGet s d.1 = some v0) :
    jsGet (mergeScriptEntry s d) d.1 = some v0 ∨
    jsGet (mergeScriptEntry s d) d.1 = some d.2 := by
  by_cases htr : truthy s d.1
  · by_cases heq : jsGet s d.1 = some d.2
    · left
      rw [mergeScriptEntry_same s d htr heq]
      exact h
    · obtain ⟨w, hw, hw0⟩ := (truthy_eq_true_iff s d.1).mp htr
      have hwne : w ≠ d.2 := by
        intro he
        exact heq (he ▸ hw)
      by_cases htrb : truthy s (bakName d.1)
      · right
        rw [mergeScriptEntry_keep_bak s d w htr hw hwne htrb]
        exact jsGet_jsSet_self _ _ _
      · right
        rw [mergeScriptEntry_demote s d w htr hw hwne (by simpa using htrb)]
        exact jsGet_jsSet_self _ _ _
  · right
    rw [mergeScriptEntry_absent s d (by simpa using htr)]
    exact jsGet_jsSet_self _ _ _

theorem mergeScripts_cons (d : String × String) (ds scripts : List (String × String)) :
    mergeScripts (d :: ds) scripts = mergeScripts ds (mergeScriptEntry scripts d) := rfl

/-- C2 counterexample: merging DESIRED_SCRIPTS into
`{build: "A", _backup_build: ""}` overwrites the pre-existing key
`_backup_build` (whose original value was `""`) with `"A"` — a value that is
neither its original value nor any desired value for that key (DESIRED_SCRIPTS
has no `_backup_build` entry), and no demoted `_backup__backup_build` key is
created.  So the claim "never absent and never a third value" fails as stated. -/
theorem mergeScripts_no_loss_counterexample :
    jsGet (mergeScripts DESIRED_SCRIPTS [(r"build", r"A"), (bakName (r"build"), emptyStr)])
        (bakName (r"build")) = some (r"A") ∧
    (r"A" : String) ≠ emptyStr ∧
    jsGet DESIRED_SCRIPTS (bakName (r"build")) = none ∧
    jsGet (mergeScripts DESIRED_SCRIPTS [(r"build", r"A"), (bakName (r"build"), emptyStr)])
        (bakName (bakName (r"build"))) = none := by
  refine ⟨by decide, by decide, by decide, by decide⟩

/-- C2 (amended): for every key `k` present in the scripts map before the merge,
`k` is still present afterwards (the merge never deletes a key) and its value is
the original one, or the desired value for `k`, or — only when `k` is a demoted
key `_backup_<n>` for some desired `n` and its original value was the empty
string — the pre-merge value of `n` (the demotion that overwrites an
empty-string backup).  Hypotheses: the desired map has unique keys none of which
is itself of the form `_backup_<n>` (true of DESIRED_SCRIPTS). -/
theorem mergeScripts_no_loss (desired scripts : List (String × String)) (k v0 : String)
    (hN : (desired.map Prod.fst).Nodup)
    (hB : ∀ kd ∈ desired.map Prod.fst, ∀ n : String, kd ≠ bakName n)
    (h : jsGet scripts k = some v0) :
    ∃ v', jsGet (mergeScripts desired scripts) k = some v' ∧
      (v' = v0 ∨ (k, v') ∈ desired ∨
        (v0 = "" ∧ ∃ n vn, (n, vn) ∈ desired ∧ k = bakName n ∧
          jsGet scripts n = some v' ∧ v' ≠ "")) := by
  induction desired generalizing scripts v0 with
  | nil => exact ⟨v0, h, Or.inl rfl⟩
  | cons d ds ih =>
    simp only [List.map_cons, List.nodup_cons] at hN
    have hBd : ∀ n, d.1 ≠ bakName n := hB d.1 (by simp)
    have hB' : ∀ kd ∈ ds.map Prod.fst, ∀ n : String, kd ≠ bakName n := by
      intro kd hkd
      exact hB kd (by simp only [List.map_cons, List.mem_cons]; exact Or.inr hkd)
    have hstep3 : ∃ v1, jsGet (mergeScriptEntry scripts d) k = some v1 ∧
        (v1 = v0 ∨ (k = d.1 ∧ v1 = d.2) ∨
          (v0 = "" ∧ k = bakName d.1 ∧ jsGet scripts d.1 = some v1 ∧ v1 ≠ "")) := by
      by_cases hk1 : k = d.1
      · rcases mergeScriptEntry_self_cases scripts d v0 (hk1 ▸ h) with hc | hc
        · exact ⟨v0, hk1 ▸ hc, Or.inl rfl⟩
        · exact ⟨d.2, hk1 ▸ hc, Or.inr (Or.inl ⟨hk1, rfl⟩)⟩
      · rcases mergeScriptEntry_bak_cases scripts d k hk1 with hfr | ⟨hk2, htrb, w, hw, hw0, hget⟩
        · exact ⟨v0, by rw [hfr]; exact h, Or.inl rfl⟩
        · have hv00 : v0 = "" := by
            have := (truthy_eq_false_iff scripts (bakName d.1)).mp htrb
            rw [← hk2] at this
            rcases this with hnone | hempty
            · rw [h] at hnone; cases hnone
            · rw [h] at hempty; exact Option.some.inj hempty
          exact ⟨w, hget, Or.inr (Or.inr ⟨hv00, hk2, hw, hw0⟩)⟩
    obtain ⟨v1, hv1, hcase⟩ := hstep3
    obtain ⟨v', hv', hrel⟩ := ih (mergeScriptEntry scripts d) v1 hN.2 hB' hv1
    refine ⟨v', hv', ?_⟩
    rcases hrel with h1 | h2 | h3
    · subst h1
      rcases hcase with hc | ⟨hkd, hvd⟩ | ⟨h0, hk2, hw, hw0⟩
      · exact Or.inl hc
      · refine Or.inr (Or.inl ?_)
        have : (k, v') = d := by
          rw [Prod.ext_iff]
          exact ⟨hkd, hvd⟩
        rw [this]
        exact List.mem_cons_self d ds
      · refine Or.inr (Or.inr ⟨h0, d.1, d.2, ?_, hk2, hw, hw0⟩)
        have : (d.1, d.2) = d := rfl
        rw [this]
        exact List.mem_cons_self d ds
    · exact Or.inr (Or.inl (List.mem_cons_of_mem d h2))
    · obtain ⟨hv10, n, vn, hmem, hkn, hgn, hvne⟩ := h3
      have hnmem : n ∈ ds.map Prod.fst := by
        have := List.mem_map_of_mem Prod.fst hmem
        simpa using this
      have hnd1 : n ≠ d.1 := by
        intro he
        exact hN.1 (he ▸ hnmem)
      have hgn' : jsGet scripts n = some v' := by
        rw [← mergeScriptEntry_frame scripts d n hnd1 (hB' n hnmem d.1)]
        exact hgn
      have hk1 : k ≠ d.1 := by
        rw [hkn]
        intro he
        exact hBd n he.symm
      have hv0e : v0 = "" := by
        rcases mergeScriptEntry_bak_cases scripts d k hk1 with hfr | ⟨hk2, htrb, w, hw, hw0, hget⟩
        · have : jsGet scripts k = some v1 := by rw [← hfr]; exact hv1
          rw [h] at this
          rw [Option.some.inj this]
          exact hv10
        · rw [hv1] at hget
          have hwv : v1 = w := Option.some.inj hget
          exact absurd (hwv ▸ hv10) hw0
      exact Or.inr (Or.inr ⟨hv0e, n, vn, List.mem_cons_of_mem d hmem, hkn, hgn', hvne⟩)

theorem ne_bakName_of_short (kd : String) (h : kd.length < 8) :
    ∀ n : String, kd ≠ bakName n := by
  intro n he
  have hl := congrArg String.length he
  rw [bakName, String.length_append] at hl
  have h8 : ("_backup_" : String).length = 8 := rfl
  omega

/-- Witness for `mergeScripts_no_loss` at a concrete input. -/
theorem mergeScripts_no_loss_witness :
    ∃ v', jsGet (mergeScripts [(r"build", r"B")] [(r"build", r"A")]) (r"build") = some v' ∧
      (v' = r"A" ∨ ((r"build" : String), v') ∈ [((r"build" : String), (r"B" : String))] ∨
        ((r"A" : String) = "" ∧ ∃ n vn, (n, vn) ∈ [((r"build" : String), (r"B" : String))] ∧
          (r"build" : String) = bakName n ∧
          jsGet [(r"build", r"A")] n = some v' ∧ v' ≠ "")) :=
  mergeScripts_no_loss [(r"build", r"B")] [(r"build", r"A")] (r"build") (r"A")
    (by decide)
    (by
      intro kd hkd
      have hk : kd = r"build" := by
        simpa using hkd
      exact hk ▸ ne_bakName_of_short (r"build") (by decide))
    (by decide)

theorem truthy_congr (m1 m2 : List (String × String)) (k : String)
    (h : jsGet m1 k = jsGet m2 k) : truthy m1 k = truthy m2 k := by
  unfold truthy
  rw [h]

theorem mergeDepEntry_frame (deps : Option (List (String × String)))
    (dev : List (String × String)) (d : String × String) (k : String) (h : k ≠ d.1) :
    jsGet (mergeDepEntry deps dev d) k = jsGet dev k := by
  unfold mergeDepEntry
  by_cases h1 : truthy dev d.1
  · simp [h1]
  · by_cases h2 : truthyOpt deps d.1 <;> simp [h1, h2, jsGet_jsSet_ne _ _ _ _ h]

theorem mergeDepEntry_truthy_dev (deps : Option (List (String × String)))
    (dev : List (String × String)) (d : String × String) (h : truthy dev d.1 = true) :
    mergeDepEntry deps dev d = dev := by
  simp [mergeDepEntry, h]

theorem mergeDepEntry_truthy_deps (deps : Option (List (String × String)))
    (dev : List (String × String)) (d : String × String) (h : truthyOpt deps d.1 = true) :
    mergeDepEntry deps dev d = dev := by
  unfold mergeDepEntry
  by_cases h1 : truthy dev d.1 <;> simp [h1, h]

theorem mergeDepEntry_insert (deps : Option (List (String × String)))
    (dev : List (String × String)) (d : String × String)
    (h1 : truthy dev d.1 = false) (h2 : truthyOpt deps d.1 = false) :
    mergeDepEntry deps dev d = jsSet dev d.1 d.2 := by
  simp [mergeDepEntry, h1, h2]

theorem mergeDevDeps_frame (desired dev : List (String × String))
    (deps : Option (List (String × String))) (name : String)
    (h : name ∉ desired.map Prod.fst) :
    jsGet (mergeDevDeps desired dev deps) name = jsGet dev name := by
  induction desired generalizing dev with
  | nil => rfl
  | cons d ds ih =>
    simp only [List.map_cons, List.mem_cons, not_or] at h
    have hne : name ≠ d.1 := h.1
    have : mergeDevDeps (d :: ds) dev deps = mergeDevDeps ds (mergeDepEntry deps dev d) deps := rfl
    rw [this, ih (mergeDepEntry deps dev d) h.2, mergeDepEntry_frame deps dev d name hne]

/-- C8 counterexample: with existing `devDependencies.vite == ""` the desired
version is inserted anyway, overwriting the present (empty) declaration — the
claim "when name is present in either map, the existing declaration is left
untouched" fails as stated, because `!pkg.devDependencies[dep]` treats the
empty string as absent. -/
theorem mergeDevDeps_keep_existing_counterexample :
    jsGet (mergeDevDeps DESIRED_DEVDEPS [(r"vite", emptyStr)] none) (r"vite")
      = some (r"^5.4.2") ∧
    emptyStr ≠ (r"^5.4.2" : String) := by
  refine ⟨by decide, by decide⟩

theorem mergeDevDeps_truthy_dev_untouched :
    ∀ (desired dev : List (String × String)) (deps : Option (List (String × String)))
      (name : String), truthy dev name = true →
      jsGet (mergeDevDeps desired dev deps) name = jsGet dev name := by
  intro desired
  induction desired with
  | nil => intro dev deps name _; rfl
  | cons d ds ih =>
    intro dev deps name htr
    have hstep : mergeDevDeps (d :: ds) dev deps
        = mergeDevDeps ds (mergeDepEntry deps dev d) deps := rfl
    by_cases hd : name = d.1
    · rw [hstep, mergeDepEntry_truthy_dev deps dev d (hd ▸ htr)]
      exact ih dev deps name htr
    · have hfr : jsGet (mergeDepEntry deps dev d) name = jsGet dev name :=
        mergeDepEntry_frame deps dev d name hd
      have htr' : truthy (mergeDepEntry deps dev d) name = true := by
        rw [truthy_congr _ dev name hfr]
        exact htr
      rw [hstep, ih (mergeDepEntry deps dev d) deps name htr', hfr]

theorem mergeDevDeps_truthy_deps_untouched :
    ∀ (desired dev : List (String × String)) (deps : Option (List (String × String)))
      (name : String), truthyOpt deps name = true →
      jsGet (mergeDevDeps desired dev deps) name = jsGet dev name := by
  intro desired
  induction desired with
  | nil => intro dev deps name _; rfl
  | cons d ds ih =>
    intro dev deps name htr
    have hstep : mergeDevDeps (d :: ds) dev deps
        = mergeDevDeps ds (mergeDepEntry deps dev d) deps := rfl
    by_cases hd : name = d.1
    · rw [hstep, mergeDepEntry_truthy_deps deps dev d (hd ▸ htr)]
      exact ih dev deps name htr
    · have hfr : jsGet (mergeDepEntry deps dev d) name = jsGet dev name :=
        mergeDepEntry_frame deps dev d name hd
      rw [hstep, ih (mergeDepEntry deps dev d) deps name htr, hfr]

theorem mergeDevDeps_inserts :
    ∀ (desired dev : List (String × String)) (deps : Option (List (String × String)))
      (name ver : String), (desired.map Prod.fst).Nodup → (name, ver) ∈ desired →
      truthy dev name = false → truthyOpt deps name = false →
      jsGet (mergeDevDeps desired dev deps) name = some ver := by
  intro desired
  induction desired with
  | nil => intro dev deps name ver _ hmem; simp at hmem
  | cons d ds ih =>
    intro dev deps name ver hN hmem h1 h2
    simp only [List.map_cons, List.nodup_cons] at hN
    have hstep : mergeDevDeps (d :: ds) dev deps
        = mergeDevDeps ds (mergeDepEntry deps dev d) deps := rfl
    rcases List.mem_cons.mp hmem with he | hm
    · have hd1 : d.1 = name := by rw [← he]
      have hd2 : d.2 = ver := by rw [← he]
      rw [hstep, mergeDepEntry_insert deps dev d (hd1 ▸ h1) (hd1 ▸ h2)]
      have hnot : name ∉ ds.map Prod.fst := hd1 ▸ hN.1
      rw [mergeDevDeps_frame ds _ deps name hnot, hd1, hd2]
      exact jsGet_jsSet_self _ _ _
    · have hname : name ∈ ds.map Prod.fst := by
        have := List.mem_map_of_mem Prod.fst hm
        simpa using this
      have hd : name ≠ d.1 := by
        intro he
        exact hN.1 (he ▸ hname)
      have hfr : jsGet (mergeDepEntry deps dev d) name = jsGet dev name :=
        mergeDepEntry_frame deps dev d name hd
      have h1' : truthy (mergeDepEntry deps dev d) name = false := by
        rw [truthy_congr _ dev name hfr]
        exact h1
      rw [hstep]
      exact ih (mergeDepEntry deps dev d) deps name ver hN.2 hm h1' h2

/-- C8 (amended): a desired dependency `(name, ver)` is inserted into the
devDependencies map exactly when `name` is absent-or-bound-to-the-empty-string
in both the devDependencies map and the dependencies map; a nonempty existing
declaration in either map is never overwritten, keys not in the desired map are
untouched, and the dependencies map itself is never modified (insertion goes to
devDependencies only). -/
theorem mergeDevDeps_keep_existing (desired dev : List (String × String))
    (deps : Option (List (String × String)))
    (hN : (desired.map Prod.fst).Nodup) :
    (∀ name, truthy dev name = true →
      jsGet (mergeDevDeps desired dev deps) name = jsGet dev name) ∧
    (∀ name, truthyOpt deps name = true →
      jsGet (mergeDevDeps desired dev deps) name = jsGet dev name) ∧
    (∀ name ver, (name, ver) ∈ desired → truthy dev name = false →
      truthyOpt deps name = false →
      jsGet (mergeDevDeps desired dev deps) name = some ver) ∧
    (∀ name, name ∉ desired.map Prod.fst →
      jsGet (mergeDevDeps desired dev deps) name = jsGet dev name) ∧
    (∀ pkg : Pkg, (patchPkg pkg).dependencies = pkg.dependencies) :=
  ⟨fun name htr => mergeDevDeps_truthy_dev_untouched desired dev deps name htr,
   fun name htr => mergeDevDeps_truthy_deps_untouched desired dev deps name htr,
   fun name ver hmem h1 h2 => mergeDevDeps_inserts desired dev deps name ver hN hmem h1 h2,
   mergeDevDeps_frame desired dev deps,
   fun _ => rfl⟩

/-- Witness for `mergeDevDeps_keep_existing` at a concrete input. -/
theorem mergeDevDeps_keep_existing_witness :
    jsGet (mergeDevDeps DESIRED_DEVDEPS [(r"vite", r"^4.0.0")] none) (r"vite")
      = jsGet [((r"vite" : String), (r"^4.0.0" : String))] (r"vite") :=
  (mergeDevDeps_keep_existing DESIRED_DEVDEPS [(r"vite", r"^4.0.0")] none
    (by decide)).1 (r"vite") (by decide)

/- ### Filesystem model: a tree of named nodes, paths as component lists -/

/-- A filesystem node: a file with (text) content, or a directory with an
ordered list of named children.  Binary payloads (the placeholder PNG) are
represented by their base64 text. -/
inductive FsNode where
  | file (content : String)
  | dir (entries : List (String × FsNode))

/-- Directory-entry lookup by name (first match). -/
def findEntry : List (String × FsNode) → String → Option FsNode
  | [], _ => none
  | e :: es, n => if e.1 = n then some e.2 else findEntry es n

def hasEntry : List (String × FsNode) → String → Bool
  | [], _ => false
  | e :: es, n => if e.1 = n then true else hasEntry es n

/-- Resolve a path from a node. -/
def getNode : List String → FsNode → Option FsNode
  | [], t => some t
  | n :: rest, FsNode.dir es =>
    match findEntry es n with
    | some t => getNode rest t
    | none => none
  | _ :: _, FsNode.file _ => none

/-- Place node `v` at a path, creating intermediate directories as needed
(the `ensureDir(path.dirname(p))` + write pattern); a file standing where a
directory is needed is replaced (the real script would throw there — no claim
exercises that corner). -/
def setNode : List String → FsNode → FsNode → FsNode
  | [], v, _ => v
  | n :: rest, v, t =>
    let es := match t with
      | FsNode.dir es => es
      | FsNode.file _ => []
    if hasEntry es n then
      FsNode.dir (es.map (fun e => if e.1 = n then (n, setNode rest v e.2) else e))
    else
      FsNode.dir (es ++ [(n, setNode rest v (FsNode.dir []))])

def exists_ (p : List String) (root : FsNode) : Bool := (getNode p root).isSome

def bakSuffix : String := ".bak-electronize"

/-- `` `${p}.bak-electronize` `` : the sibling backup path. -/
def bakPath : List String → List String
  | [] => []
  | [x] => [x ++ bakSuffix]
  | x :: xs => x :: bakPath xs

/-- The observable result of `safeWrite` (its return value and log line):
`false`/"Unchanged", or `true` with/without the "Backed up" warning. -/
inductive WriteOutcome where
  | unchanged
  | wrote (backedUp : Bool)
deriving DecidableEq

def eisdirMsg : String := "EISDIR: illegal operation on a directory"

/-- `safeWrite(filePath, content, options)` of setup.mjs:
```
if (await exists(p)) {
  if (!options.force) {
    const old = await fs.readFile(p, "utf8");
    if (old === content) { log(...); return false; }
    const bak = `${p}.bak-electronize`;
    await fs.copyFile(p, bak).catch(() => {});
    warn(...);
  }
}
await ensureDir(path.dirname(p));
await fs.writeFile(p, content, "utf8");
return true;
```
The best-effort backup copy is modeled as succeeding (its failure is swallowed
by `.catch`); reading or writing an existing directory path throws (EISDIR),
which the main IIFE's catch turns into a non-zero exit. -/
def safeWrite (p : List String) (content : String) (force : Bool) (root : FsNode) :
    Except String (FsNode × WriteOutcome) :=
  match getNode p root with
  | some (FsNode.file old) =>
    if force then Except.ok (setNode p (FsNode.file content) root, WriteOutcome.wrote false)
    else if old = content then Except.ok (root, WriteOutcome.unchanged)
    else Except.ok
      (setNode p (FsNode.file content) (setNode (bakPath p) (FsNode.file old) root),
        WriteOutcome.wrote true)
  | some (FsNode.dir _) => Except.error eisdirMsg
  | none => Except.ok (setNode p (FsNode.file content) root, WriteOutcome.wrote false)

def electronName : String := "electron"

def uiName : String := "ui"

def srcPath : List String := [r"src"]

def uiPath : List String := [r"src", r"ui"]

def srcMissingMsg : String := "No src/ directory found. Run this in the React project root."

def notDirMsg : String := "ENOTDIR: not a directory, scandir"

/-- `items.some((name) => name !== "electron")`. -/
def hasNonElectron : List (String × FsNode) → Bool
  | [] => false
  | e :: es => if e.1 = electronName then hasNonElectron es else true

/-- The children of `src` that stay (`name === "electron"`). -/
def keptEntries : List (String × FsNode) → List (String × FsNode)
  | [] => []
  | e :: es => if e.1 = electronName then e :: keptEntries es else keptEntries es

/-- The children of `src` that are renamed into `src/ui`, in iteration order. -/
def movedEntries : List (String × FsNode) → List (String × FsNode)
  | [] => []
  | e :: es => if e.1 = electronName then movedEntries es else e :: movedEntries es

/-- `moveSrcToUi()` of setup.mjs: fail if no `src/`; skip if `src/ui` exists;
skip if `src` has only `electron` children (or none); otherwise create `src/ui`
and move every non-`electron` child into it (`fs.rename`, with the copy+remove
fallback having the same effect on the tree). -/
def moveSrcToUi (root : FsNode) : Except String FsNode :=
  match getNode srcPath root with
  | none => Except.error srcMissingMsg
  | some srcNode =>
    if (getNode uiPath root).isSome then Except.ok root
    else match srcNode with
      | FsNode.file _ => Except.error notDirMsg
      | FsNode.dir items =>
        if hasNonElectron items then
          Except.ok (setNode srcPath
            (FsNode.dir (keptEntries items ++ [(uiName, FsNode.dir (movedEntries items))]))
            root)
        else Except.ok root

@[simp] theorem getNode_nil (t : FsNode) : getNode [] t = some t := rfl

@[simp] theorem getNode_cons_file (n : String) (rest : List String) (c : String) :
    getNode (n :: rest) (FsNode.file c) = none := rfl

theorem getNode_cons_dir (n : String) (rest : List String) (es : List (String × FsNode)) :
    getNode (n :: rest) (FsNode.dir es) =
      match findEntry es n with
      | some t => getNode rest t
      | none => none := rfl

@[simp] theorem getNode_cons_dir_nil (n : String) (rest : List String) :
    getNode (n :: rest) (FsNode.dir []) = none := rfl

@[simp] theorem findEntry_nil (n : String) : findEntry [] n = none := rfl

@[simp] theorem findEntry_cons (e : String × FsNode) (es : List (String × FsNode)) (n : String) :
    findEntry (e :: es) n = if e.1 = n then some e.2 else findEntry es n := rfl

theorem hasEntry_eq_isSome (es : List (String × FsNode)) (n : String) :
    hasEntry es n = (findEntry es n).isSome := by
  induction es with
  | nil => rfl
  | cons e es ih =>
    by_cases h : e.1 = n <;> simp [hasEntry, h, ih]

theorem findEntry_map_update (es : List (String × FsNode)) (n : String) (f : FsNode → FsNode) :
    findEntry (es.map (fun e => if e.1 = n then (n, f e.2) else e)) n
      = (findEntry es n).map f := by
  induction es with
  | nil => rfl
  | cons e es ih =>
    by_cases h : e.1 = n <;> simp [h, ih]

theorem findEntry_map_update_ne (es : List (String × FsNode)) (n : String) (f : FsNode → FsNode)
    (n' : String) (h : n' ≠ n) :
    findEntry (es.map (fun e => if e.1 = n then (n, f e.2) else e)) n' = findEntry es n' := by
  induction es with
  | nil => rfl
  | cons e es ih =>
    by_cases he : e.1 = n
    · have hne : ¬ n = n' := fun hh => h hh.symm
      simp [he, hne, ih]
    · by_cases he' : e.1 = n' <;> simp [he, he', h, ih]

theorem findEntry_append_self (es : List (String × FsNode)) (n : String) (x : FsNode)
    (h : findEntry es n = none) : findEntry (es ++ [(n, x)]) n = some x := by
  induction es with
  | nil => simp
  | cons e es ih =>
    by_cases he : e.1 = n
    · simp [he] at h
    · simp only [findEntry_cons, he, if_false] at h
      simpa [he] using ih h

theorem findEntry_append_ne (es : List (String × FsNode)) (n : String) (x : FsNode)
    (n' : String) (h : n' ≠ n) : findEntry (es ++ [(n, x)]) n' = findEntry es n' := by
  induction es with
  | nil =>
    have hne : ¬ n = n' := fun hh => h hh.symm
    simp [hne]
  | cons e es ih =>
    by_cases he : e.1 = n' <;> simp [he, ih]

theorem getNode_cons_dir_found (n : String) (rest : List String)
    (es : List (String × FsNode)) (t' : FsNode) (h : findEntry es n = some t') :
    getNode (n :: rest) (FsNode.dir es) = getNode rest t' := by
  rw [getNode_cons_dir, h]

theorem getNode_cons_dir_notfound (n : String) (rest : List String)
    (es : List (String × FsNode)) (h : findEntry es n = none) :
    getNode (n :: rest) (FsNode.dir es) = none := by
  rw [getNode_cons_dir, h]

theorem getNode_ne_nil_dir_nil (p : List String) (hp : p ≠ []) :
    getNode p (FsNode.dir []) = none := by
  cases p with
  | nil => exact absurd rfl hp
  | cons a l => rfl

theorem getNode_append (p : List String) :
    ∀ (q : List String) (t : FsNode), getNode (p ++ q) t =
      match getNode p t with
      | some t' => getNode q t'
      | none => none := by
  induction p with
  | nil => intro q t; rfl
  | cons n rest ih =>
    intro q t
    cases t with
    | file c => rfl
    | dir es =>
      rw [List.cons_append, getNode_cons_dir, getNode_cons_dir]
      cases findEntry es n with
      | some t' => exact ih q t'
      | none => rfl

theorem getNode_setNode_append (p : List String) :
    ∀ (q : List String) (v t : FsNode), getNode (p ++ q) (setNode p v t) = getNode q v := by
  induction p with
  | nil => intro q v t; rfl
  | cons n rest ih =>
    intro q v t
    have hes : setNode (n :: rest) v t =
        (let es := match t with
          | FsNode.dir es => es
          | FsNode.file _ => []
        if hasEntry es n then
          FsNode.dir (es.map (fun e => if e.1 = n then (n, setNode rest v e.2) else e))
        else FsNode.dir (es ++ [(n, setNode rest v (FsNode.dir []))])) := rfl
    rw [hes]
    set es := (match t with
      | FsNode.dir es => es
      | FsNode.file _ => []) with hes2
    by_cases hk : hasEntry es n
    · rw [if_pos hk, List.cons_append, getNode_cons_dir,
        findEntry_map_update es n (setNode rest v)]
      rw [hasEntry_eq_isSome] at hk
      cases hfe : findEntry es n with
      | some x => simpa using ih q v x
      | none => rw [hfe] at hk; simp at hk
    · rw [if_neg hk, List.cons_append, getNode_cons_dir]
      have hnone : findEntry es n = none := by
        rw [hasEntry_eq_isSome] at hk
        cases hfe : findEntry es n with
        | some x => rw [hfe] at hk; simp at hk
        | none => rfl
      rw [findEntry_append_self es n _ hnone]
      exact ih q v (FsNode.dir [])

theorem getNode_setNode_self (p : List String) (v t : FsNode) :
    getNode p (setNode p v t) = some v := by
  have h := getNode_setNode_append p [] v t
  simpa using h

theorem getNode_setNode_diverge (p : List String) :
    ∀ (n1 n2 : String) (q1 q2 : List String) (v t : FsNode), n1 ≠ n2 →
      getNode (p ++ n1 :: q1) (setNode (p ++ n2 :: q2) v t)
        = getNode (p ++ n1 :: q1) t := by
  induction p with
  | nil =>
    intro n1 n2 q1 q2 v t h
    simp only [List.nil_append]
    have h21 : ¬ n2 = n1 := fun hh => h hh.symm
    cases t with
    | file c =>
      have hset : setNode (n2 :: q2) v (FsNode.file c)
          = FsNode.dir [(n2, setNode q2 v (FsNode.dir []))] := rfl
      rw [hset, getNode_cons_dir_notfound n1 q1 _ (by simp [h21]), getNode_cons_file]
    | dir es =>
      by_cases hk : hasEntry es n2
      · have hset : setNode (n2 :: q2) v (FsNode.dir es)
            = FsNode.dir (es.map (fun e => if e.1 = n2 then (n2, setNode q2 v e.2) else e)) := by
          show (if hasEntry es n2 then _ else _) = _
          rw [if_pos hk]
        rw [hset, getNode_cons_dir, getNode_cons_dir,
          findEntry_map_update_ne es n2 (setNode q2 v) n1 h]
      · have hset : setNode (n2 :: q2) v (FsNode.dir es)
            = FsNode.dir (es ++ [(n2, setNode q2 v (FsNode.dir []))]) := by
          show (if hasEntry es n2 then _ else _) = _
          rw [if_neg hk]
        rw [hset, getNode_cons_dir, getNode_cons_dir,
          findEntry_append_ne es n2 _ n1 h]
  | cons m p' ih =>
    intro n1 n2 q1 q2 v t h
    rw [List.cons_append, List.cons_append]
    have hne : (p' ++ n1 :: q1) ≠ [] := by simp
    cases t with
    | file c =>
      have hset : setNode (m :: (p' ++ n2 :: q2)) v (FsNode.file c)
          = FsNode.dir [(m, setNode (p' ++ n2 :: q2) v (FsNode.dir []))] := rfl
      rw [hset, getNode_cons_dir_found m (p' ++ n1 :: q1) _
          (setNode (p' ++ n2 :: q2) v (FsNode.dir [])) (by simp),
        ih n1 n2 q1 q2 v (FsNode.dir []) h, getNode_ne_nil_dir_nil _ hne, getNode_cons_file]
    | dir es =>
      by_cases hk : hasEntry es m
      · have hset : setNode (m :: (p' ++ n2 :: q2)) v (FsNode.dir es)
            = FsNode.dir (es.map (fun e =>
                if e.1 = m then (m, setNode (p' ++ n2 :: q2) v e.2) else e)) := by
          show (if hasEntry es m then _ else _) = _
          rw [if_pos hk]
        rw [hset]
        cases hfe : findEntry es m with
        | some x =>
          rw [getNode_cons_dir_found m (p' ++ n1 :: q1) _ _
              (by rw [findEntry_map_update es m _, hfe]; rfl),
            ih n1 n2 q1 q2 v x h, getNode_cons_dir_found m (p' ++ n1 :: q1) es x hfe]
        | none =>
          rw [getNode_cons_dir_notfound m (p' ++ n1 :: q1) _
              (by rw [findEntry_map_update es m _, hfe]; rfl),
            getNode_cons_dir_notfound m (p' ++ n1 :: q1) es hfe]
      · have hnone : findEntry es m = none := by
          rw [hasEntry_eq_isSome] at hk
          cases hfe : findEntry es m with
          | some x => rw [hfe] at hk; simp at hk
          | none => rfl
        have hset : setNode (m :: (p' ++ n2 :: q2)) v (FsNode.dir es)
            = FsNode.dir (es ++ [(m, setNode (p' ++ n2 :: q2) v (FsNode.dir []))]) := by
          show (if hasEntry es m then _ else _) = _
          rw [if_neg hk]
        rw [hset, getNode_cons_dir_found m (p' ++ n1 :: q1) _ _
            (findEntry_append_self es m _ hnone),
          ih n1 n2 q1 q2 v (FsNode.dir []) h, getNode_ne_nil_dir_nil _ hne,
          getNode_cons_dir_notfound m (p' ++ n1 :: q1) es hnone]

theorem bakPath_cons_cons (a b : String) (l : List String) :
    bakPath (a :: b :: l) = a :: bakPath (b :: l) := rfl

theorem bakPath_concat (l : List String) (x : String) :
    bakPath (l ++ [x]) = l ++ [x ++ bakSuffix] := by
  induction l with
  | nil => rfl
  | cons a l' ih =>
    cases l' with
    | nil => rfl
    | cons b l'' =>
      show bakPath (a :: ((b :: l'') ++ [x])) = _
      rw [show (a : String) :: ((b :: l'') ++ [x]) = a :: b :: (l'' ++ [x]) from rfl,
        bakPath_cons_cons, show (b : String) :: (l'' ++ [x]) = (b :: l'') ++ [x] from rfl, ih]
      rfl

theorem self_ne_append_bakSuffix (x : String) : x ++ bakSuffix ≠ x := by
  intro h
  have hl := congrArg String.length h
  rw [String.length_append] at hl
  have h16 : bakSuffix.length = 16 := rfl
  omega

/-- A write never touches the sibling backup path (which differs from the
written path in its last component). -/
theorem getNode_bakPath_setNode (p : List String) (hp : p ≠ []) (v t : FsNode) :
    getNode (bakPath p) (setNode p v t) = getNode (bakPath p) t := by
  rcases List.eq_nil_or_concat p with h | ⟨l, x, h⟩
  · exact absurd h hp
  · subst h
    rw [List.concat_eq_append, bakPath_concat]
    exact getNode_setNode_diverge l (x ++ bakSuffix) x [] [] v t (self_ne_append_bakSuffix x)

/-- C1 counterexample: a forced write of different content over an existing
file overwrites it and creates no backup at all — the outcome records no
backup and the backup path is absent afterwards.  (The only safeWrite branch
that backs up is the non-forced one; the manifest's pre-merge backup is a
separate, explicit write made by `patchPackageJson` itself.) -/
theorem safeWrite_force_backup_counterexample :
    safeWrite [r"f.txt"] (r"new") true (FsNode.dir [(r"f.txt", FsNode.file (r"old"))])
      = Except.ok (FsNode.dir [((r"f.txt" : String), FsNode.file (r"new"))],
          WriteOutcome.wrote false) ∧
    getNode (bakPath [r"f.txt"]) (FsNode.dir [((r"f.txt" : String), FsNode.file (r"new"))])
      = none ∧
    (r"old" : String) ≠ r"new" := by
  refine ⟨rfl, rfl, by decide⟩

/-- C1 (amended): a forced write on an existing file path skips the
byte-identity short-circuit and overwrites unconditionally, but creates no
backup: the result is exactly the overwrite, the outcome reports no backup,
and the backup path's content is whatever it was before. -/
theorem safeWrite_force_overwrites_without_backup (root : FsNode) (p : List String)
    (c old : String) (h : getNode p root = some (FsNode.file old)) (hp : p ≠ []) :
    safeWrite p c true root
      = Except.ok (setNode p (FsNode.file c) root, WriteOutcome.wrote false) ∧
    getNode p (setNode p (FsNode.file c) root) = some (FsNode.file c) ∧
    getNode (bakPath p) (setNode p (FsNode.file c) root) = getNode (bakPath p) root := by
  refine ⟨?_, getNode_setNode_self p _ root, getNode_bakPath_setNode p hp _ root⟩
  unfold safeWrite
  rw [h]
  rfl

/-- Witness for `safeWrite_force_overwrites_without_backup` at a concrete input. -/
theorem safeWrite_force_overwrites_without_backup_witness :
    safeWrite [r"a"] (r"x") true (FsNode.dir [(r"a", FsNode.file (r"y"))])
      = Except.ok (setNode [r"a"] (FsNode.file (r"x"))
          (FsNode.dir [(r"a", FsNode.file (r"y"))]), WriteOutcome.wrote false) :=
  (safeWrite_force_overwrites_without_backup (FsNode.dir [(r"a", FsNode.file (r"y"))])
    [r"a"] (r"x") (r"y") rfl (by decide)).1

/-- C5: a non-forced write of byte-identical content over an existing file
performs no write and no backup — the filesystem is returned unchanged — and
reports "unchanged"; since the state is unchanged, repeating the same write is
a no-op for that file. -/
theorem safeWrite_unchanged_noop (root : FsNode) (p : List String) (c : String)
    (h : getNode p root = some (FsNode.file c)) :
    safeWrite p c false root = Except.ok (root, WriteOutcome.unchanged) := by
  unfold safeWrite
  rw [h]
  simp

/-- Witness for `safeWrite_unchanged_noop` at a concrete input. -/
theorem safeWrite_unchanged_noop_witness :
    safeWrite [r"a"] (r"y") false (FsNode.dir [(r"a", FsNode.file (r"y"))])
      = Except.ok (FsNode.dir [(r"a", FsNode.file (r"y"))], WriteOutcome.unchanged) :=
  safeWrite_unchanged_noop (FsNode.dir [(r"a", FsNode.file (r"y"))]) [r"a"] (r"y") rfl

theorem keptEntries_key (items : List (String × FsNode)) :
    ∀ e ∈ keptEntries items, e.1 = electronName := by
  induction items with
  | nil => intro e he; simp [keptEntries] at he
  | cons a items ih =>
    intro e he
    by_cases ha : a.1 = electronName
    · rw [keptEntries, if_pos ha] at he
      rcases List.mem_cons.mp he with h | h
      · rw [h]; exact ha
      · exact ih e h
    · rw [keptEntries, if_neg ha] at he
      exact ih e he

theorem movedEntries_mem (items : List (String × FsNode)) (n : String) (c : FsNode)
    (hm : (n, c) ∈ items) (hne : n ≠ electronName) : (n, c) ∈ movedEntries items := by
  induction items with
  | nil => simp at hm
  | cons a items ih =>
    rcases List.mem_cons.mp hm with h | h
    · rw [movedEntries, if_neg (by rw [← h]; exact hne)]
      rw [← h]
      exact List.mem_cons_self _ _
    · by_cases ha : a.1 = electronName
      · rw [movedEntries, if_pos ha]
        exact ih h
      · rw [movedEntries, if_neg ha]
        exact List.mem_cons_of_mem a (ih h)

theorem movedEntries_sublist (items : List (String × FsNode)) :
    (movedEntries items).Sublist items := by
  induction items with
  | nil => exact List.Sublist.refl _
  | cons a items ih =>
    by_cases ha : a.1 = electronName
    · rw [movedEntries, if_pos ha]
      exact List.Sublist.cons a ih
    · rw [movedEntries, if_neg ha]
      exact List.Sublist.cons₂ a ih

theorem findEntry_eq_of_mem_nodup (es : List (String × FsNode)) (n : String) (c : FsNode)
    (hm : (n, c) ∈ es) (hnd : (es.map Prod.fst).Nodup) : findEntry es n = some c := by
  induction es with
  | nil => simp at hm
  | cons e es ih =>
    simp only [List.map_cons, List.nodup_cons] at hnd
    rcases List.mem_cons.mp hm with h | h
    · rw [← h]
      simp
    · by_cases he : e.1 = n
      · exfalso
        apply hnd.1
        rw [he]
        have := List.mem_map_of_mem Prod.fst h
        simpa using this
      · rw [findEntry_cons, if_neg he]
        exact ih h hnd.2

theorem hasNonElectron_false (items : List (String × FsNode))
    (h : ∀ e ∈ items, e.1 = electronName) : hasNonElectron items = false := by
  induction items with
  | nil => rfl
  | cons a items ih =>
    rw [hasNonElectron, if_pos (h a (List.mem_cons_self _ _))]
    exact ih (fun e he => h e (List.mem_cons_of_mem a he))

theorem findEntry_keptEntries (items : List (String × FsNode)) :
    findEntry (keptEntries items) electronName = findEntry items electronName := by
  induction items with
  | nil => rfl
  | cons a items ih =>
    by_cases ha : a.1 = electronName
    · rw [keptEntries, if_pos ha, findEntry_cons, findEntry_cons, if_pos ha, if_pos ha]
    · rw [keptEntries, if_neg ha, findEntry_cons, if_neg ha, ih]

/-- C9: the relocation is a complete no-op — the tree is returned unchanged —
whenever the destination `src/ui` already exists, and likewise whenever every
immediate child of `src` is named `electron` (which also covers an empty
`src`). -/
theorem moveSrcToUi_noop :
    (∀ root : FsNode, (getNode uiPath root).isSome = true →
      moveSrcToUi root = Except.ok root) ∧
    (∀ (root : FsNode) (items : List (String × FsNode)),
      getNode srcPath root = some (FsNode.dir items) →
      (∀ e ∈ items, e.1 = electronName) → moveSrcToUi root = Except.ok root) := by
  constructor
  · intro root hui
    unfold moveSrcToUi
    cases hsrc : getNode srcPath root with
    | none =>
      exfalso
      have hu : uiPath = srcPath ++ [uiName] := rfl
      rw [hu, getNode_append, hsrc] at hui
      simp at hui
    | some srcNode => simp [hui]
  · intro root items hsrc hall
    unfold moveSrcToUi
    rw [hsrc]
    by_cases hui : (getNode uiPath root).isSome
    · simp [hui]
    · simp only [Bool.not_eq_true] at hui
      rw [hui]
      simp [hasNonElectron_false items hall]

/-- Witness for `moveSrcToUi_noop` at concrete inputs. -/
theorem moveSrcToUi_noop_witness :
    moveSrcToUi (FsNode.dir [(r"src", FsNode.dir [(r"ui", FsNode.dir [])])])
      = Except.ok (FsNode.dir [(r"src", FsNode.dir [(r"ui", FsNode.dir [])])]) ∧
    moveSrcToUi (FsNode.dir [(r"src", FsNode.dir [(r"electron", FsNode.dir [])])])
      = Except.ok (FsNode.dir [(r"src", FsNode.dir [(r"electron", FsNode.dir [])])]) :=
  ⟨moveSrcToUi_noop.1 (FsNode.dir [(r"src", FsNode.dir [(r"ui", FsNode.dir [])])]) rfl,
   moveSrcToUi_noop.2 (FsNode.dir [(r"src", FsNode.dir [(r"electron", FsNode.dir [])])])
     [((r"electron" : String), FsNode.dir [])] rfl (by decide)⟩

theorem findEntry_none_of_all_ne (es : List (String × FsNode)) (n : String)
    (h : ∀ e ∈ es, e.1 ≠ n) : findEntry es n = none := by
  induction es with
  | nil => rfl
  | cons e es ih =>
    rw [findEntry_cons, if_neg (h e (List.mem_cons_self _ _))]
    exact ih (fun e' he' => h e' (List.mem_cons_of_mem e he'))

theorem getNode_single (n : String) (es : List (String × FsNode)) :
    getNode [n] (FsNode.dir es) = findEntry es n := by
  rw [getNode_cons_dir]
  cases findEntry es n <;> rfl

def rootC6 : FsNode :=
  FsNode.dir [(r"src", FsNode.dir
    [(r"a.ts", FsNode.file (r"A")), (r"b.css", FsNode.file (r"B")),
     (r"electron", FsNode.dir [(r"c.ts", FsNode.file (r"C"))])])]

def rootC6after : FsNode :=
  FsNode.dir [(r"src", FsNode.dir
    [(r"electron", FsNode.dir [(r"c.ts", FsNode.file (r"C"))]),
     (r"ui", FsNode.dir [(r"a.ts", FsNode.file (r"A")), (r"b.css", FsNode.file (r"B"))])])]

/-- C6 counterexample: relocating `src = {a.ts, b.css, electron/}` with
excluded set `{electron}` leaves `src` with children `electron` AND `ui` — the
destination directory is created inside the source directory, so the source
does not retain "only the entries named in E". -/
theorem moveSrcToUi_only_excluded_counterexample :
    moveSrcToUi rootC6 = Except.ok rootC6after ∧
    (getNode (srcPath ++ [uiName]) rootC6after).isSome = true ∧
    uiName ≠ electronName := by
  refine ⟨rfl, rfl, by decide⟩

/-- C6 (amended): under the preconditions of an actual move (source exists,
destination absent, some non-excluded child, unique child names), the
relocation succeeds, every non-excluded immediate child of `src` is present —
as the very same node, hence byte-for-byte — under `src/ui`, the excluded
`electron` entry is untouched, and `src` afterwards retains only the excluded
entries plus the newly created destination directory `ui` itself (which is a
child of the source directory, not a sibling). -/
theorem moveSrcToUi_relocates (root : FsNode) (items : List (String × FsNode))
    (hsrc : getNode srcPath root = some (FsNode.dir items))
    (hui : getNode uiPath root = none)
    (hne : hasNonElectron items = true)
    (hnd : (items.map Prod.fst).Nodup) :
    ∃ root', moveSrcToUi root = Except.ok root' ∧
      (∀ n c, (n, c) ∈ items → n ≠ electronName → getNode (uiPath ++ [n]) root' = some c) ∧
      getNode (srcPath ++ [electronName]) root' = getNode (srcPath ++ [electronName]) root ∧
      (∃ es, getNode srcPath root' = some (FsNode.dir es) ∧
        ∀ e ∈ es, e.1 = electronName ∨ e.1 = uiName) := by
  have hue : uiName ≠ electronName := by decide
  have hstep : moveSrcToUi root = Except.ok (setNode srcPath
      (FsNode.dir (keptEntries items ++ [(uiName, FsNode.dir (movedEntries items))]))
      root) := by
    unfold moveSrcToUi
    rw [hsrc, hui]
    simp [hne]
  refine ⟨_, hstep, ?_, ?_, ?_⟩
  · intro n c hm hnel
    have hp : uiPath ++ [n] = srcPath ++ (uiName :: [n]) := rfl
    rw [hp, getNode_setNode_append]
    have hkept : findEntry (keptEntries items) uiName = none := by
      apply findEntry_none_of_all_ne
      intro e he
      rw [keptEntries_key items e he]
      exact fun hh => hue hh.symm
    rw [getNode_cons_dir_found uiName [n] _ _ (findEntry_append_self _ _ _ hkept),
      getNode_single]
    have hndm : ((movedEntries items).map Prod.fst).Nodup :=
      List.Nodup.sublist (List.Sublist.map Prod.fst (movedEntries_sublist items)) hnd
    exact findEntry_eq_of_mem_nodup _ n c (movedEntries_mem items n c hm hnel) hndm
  · have hp : srcPath ++ [electronName] = srcPath ++ (electronName :: []) := rfl
    rw [hp, getNode_setNode_append, getNode_append, hsrc]
    rw [show (getNode (electronName :: []) (FsNode.dir (keptEntries items
        ++ [(uiName, FsNode.dir (movedEntries items))]))) = findEntry (keptEntries items
        ++ [(uiName, FsNode.dir (movedEntries items))]) electronName from getNode_single _ _]
    rw [findEntry_append_ne _ _ _ _ (fun hh => hue hh.symm), findEntry_keptEntries]
    show findEntry items electronName = getNode [electronName] (FsNode.dir items)
    rw [getNode_single]
  · refine ⟨keptEntries items ++ [(uiName, FsNode.dir (movedEntries items))],
      getNode_setNode_self _ _ _, ?_⟩
    intro e he
    rcases List.mem_append.mp he with h | h
    · exact Or.inl (keptEntries_key items e h)
    · simp only [List.mem_singleton] at h
      rw [h]
      exact Or.inr rfl

/-- Witness for `moveSrcToUi_relocates` at a concrete input. -/
theorem moveSrcToUi_relocates_witness :
    ∃ root', moveSrcToUi rootC6 = Except.ok root' ∧
      (∀ n c, (n, c) ∈ [((r"a.ts" : String), FsNode.file (r"A")),
          ((r"b.css" : String), FsNode.file (r"B")),
          ((r"electron" : String), FsNode.dir [(r"c.ts", FsNode.file (r"C"))])] →
        n ≠ electronName → getNode (uiPath ++ [n]) root' = some c) ∧
      getNode (srcPath ++ [electronName]) root'
        = getNode (srcPath ++ [electronName]) rootC6 ∧
      (∃ es, getNode srcPath root' = some (FsNode.dir es) ∧
        ∀ e ∈ es, e.1 = electronName ∨ e.1 = uiName) :=
  moveSrcToUi_relocates rootC6
    [((r"a.ts" : String), FsNode.file (r"A")), ((r"b.css" : String), FsNode.file (r"B")),
     ((r"electron" : String), FsNode.dir [(r"c.ts", FsNode.file (r"C"))])]
    rfl rfl rfl (by decide)

/- ### Anchor text patcher (src/setup.mjs `patchIndexHtml`, lines 244-278)

The regular expression
`/<script[^>]*type=["']module["'][^>]*src=["'][^"']+["'][^>]*>\s*<\/script>/i`
is embedded as a backtracking matcher with JavaScript's semantics: the first
(leftmost) match wins and quantifiers are greedy, trying the longest
consumption first. -/

/-- Case-insensitive literal matching (the `/i` flag): consume `pat`. -/
def litCI : List Char → List Char → Option (List Char)
  | [], cs => some cs
  | p :: ps, c :: cs => if c.toLower = p.toLower then litCI ps cs else none
  | _ :: _, [] => none

/-- `pre` matches `pat` exactly, case-insensitively. -/
def matchesCI : List Char → List Char → Bool
  | [], [] => true
  | p :: ps, c :: cs => if c.toLower = p.toLower then matchesCI ps cs else false
  | _, _ => false

/-- `l` starts with `pat`, case-insensitively. -/
def startsWithCI : List Char → List Char → Bool
  | [], _ => true
  | _ :: _, [] => false
  | p :: ps, c :: cs => if c.toLower = p.toLower then startsWithCI ps cs else false

/-- `l` contains `pat` (case-insensitively) at some position. -/
def containsCI : List Char → List Char → Bool
  | [], pat => startsWithCI pat []
  | c :: cs, pat => if startsWithCI pat (c :: cs) then true else containsCI cs pat

/-- `l` starts with `pat` (case-sensitive; for `html.includes(...)`). -/
def startsWithL : List Char → List Char → Bool
  | [], _ => true
  | _ :: _, [] => false
  | p :: ps, c :: cs => if c = p then startsWithL ps cs else false

/-- `html.includes(pat)`. -/
def containsL : List Char → List Char → Bool
  | [], pat => startsWithL pat []
  | c :: cs, pat => if startsWithL pat (c :: cs) then true else containsL cs pat

/-- Greedy `class*` then continuation `k`, longest consumption first
(backtracking on failure), as in JavaScript regexes. -/
def starThen (ok : Char → Bool) (k : List Char → Option (List Char)) :
    List Char → Option (List Char)
  | [] => k []
  | c :: cs =>
    if ok c then
      match starThen ok k cs with
      | some r => some r
      | none => k (c :: cs)
    else k (c :: cs)

/-- Greedy `class+` then continuation `k`. -/
def plusThen (ok : Char → Bool) (k : List Char → Option (List Char)) :
    List Char → Option (List Char)
  | [] => none
  | c :: cs => if ok c then starThen ok k cs else none

/-- `["']` then continuation `k`. -/
def quoteThen (k : List Char → Option (List Char)) : List Char → Option (List Char)
  | [] => none
  | c :: cs => if c = '"' ∨ c = '\'' then k cs else none

/-- `[^>]`. -/
def nonGt (c : Char) : Bool := if c = '>' then false else true

/-- `[^"']`. -/
def nonQuote (c : Char) : Bool := if c = '"' then false else if c = '\'' then false else true

/-- `\s`. -/
def isWs (c : Char) : Bool := c.isWhitespace

def scriptOpenL : List Char := "<script".toList

def typeEqL : List Char := "type=".toList

def moduleL : List Char := "module".toList

def srcEqL : List Char := "src=".toList

def closeScriptL : List Char := "</script>".toList

/-- `\s*<\/script>`. -/
def pWs : List Char → Option (List Char) := starThen isWs (fun r => litCI closeScriptL r)

/-- `>` then `\s*<\/script>`. -/
def pGt : List Char → Option (List Char)
  | c :: cs => if c = '>' then pWs cs else none
  | [] => none

/-- `[^>]*>\s*<\/script>`. -/
def pClose : List Char → Option (List Char) := starThen nonGt pGt

/-- `["'][^>]*>\s*<\/script>` (closing quote of the src value onwards). -/
def pAfterPath : List Char → Option (List Char) := quoteThen pClose

/-- `[^"']+["'][^>]*>\s*<\/script>`. -/
def pPath : List Char → Option (List Char) := plusThen nonQuote pAfterPath

/-- `src=["'][^"']+["'][^>]*>\s*<\/script>`. -/
def pSrc (r : List Char) : Option (List Char) :=
  match litCI srcEqL r with
  | some r2 => quoteThen pPath r2
  | none => none

/-- `[^>]*src=...`. -/
def pMidStar : List Char → Option (List Char) := starThen nonGt pSrc

/-- `module["'][^>]*src=...`. -/
def pModule (r : List Char) : Option (List Char) :=
  match litCI moduleL r with
  | some r2 => quoteThen pMidStar r2
  | none => none

/-- `type=["']module...`. -/
def pType (r : List Char) : Option (List Char) :=
  match litCI typeEqL r with
  | some r2 => quoteThen pModule r2
  | none => none

/-- `[^>]*type=...`. -/
def pTypeStar : List Char → Option (List Char) := starThen nonGt pType

/-- Try the whole module-script-tag regex at this position; on success return
the unconsumed remainder. -/
def tagMatch (cs : List Char) : Option (List Char) :=
  match litCI scriptOpenL cs with
  | some r => pTypeStar r
  | none => none

/-- Leftmost match: scan positions left to right; on success return the text
before the match and the text after it. -/
def findTag : List Char → Option (List Char × List Char)
  | [] => none
  | c :: cs =>
    match tagMatch (c :: cs) with
    | some rest => some ([], rest)
    | none =>
      match findTag cs with
      | some (pre, rest) => some (c :: pre, rest)
      | none => none

/-- `html.replace(moduleTagRegex, relScript)` (non-global: first match only). -/
def replaceFirstTag (html repl : List Char) : List Char :=
  match findTag html with
  | some (pre, rest) => pre ++ repl ++ rest
  | none => html

/-- `moduleTagRegex.test(html)`. -/
def testTag (html : List Char) : Bool := (findTag html).isSome

/-- `html.replace(pat, repl)` for a plain-string pattern: replace the first
occurrence, or return the input unchanged when there is none. -/
def replaceSub : List Char → List Char → List Char → List Char
  | [], _, _ => []
  | c :: cs, pat, repl =>
    if startsWithL pat (c :: cs) then repl ++ (c :: cs).drop pat.length
    else c :: replaceSub cs pat repl

/-- `` `<script type="module" src="/src/ui/${entry}"></script>` ``. -/
def relScript (entry : String) : String :=
  "<script type=\"module\" src=\"/src/ui/" ++ entry ++ "\"></script>"

def bodyCloseL : List Char := r"</body>".toList

def twoSpacesL : List Char := "  ".toList

def nlBodyCloseL : List Char := "\x0a</body>".toList

/-- The existing-document branch of `patchIndexHtml`:
```
const moduleTagRegex = /<script[^>]*type=["']module["'][^>]*src=["'][^"']+["'][^>]*>\s*<\/script>/i;
if (moduleTagRegex.test(html))      html = html.replace(moduleTagRegex, relScript);
else if (!html.includes(relScript)) html = html.replace("</body>", `  ${relScript}\n</body>`);
else                                log("... skipping patch.");
```
(`safeWrite(..., {force:true})` then persists `html` as-is.) -/
def rewriteIndexHtml (entry : String) (html : List Char) : List Char :=
  let rel := (relScript entry).toList
  if testTag html then replaceFirstTag html rel
  else if containsL html rel = false then
    replaceSub html bodyCloseL (twoSpacesL ++ rel ++ nlBodyCloseL)
  else html

def tagHeadL : List Char := "<script type=\"module\" src=\"".toList

def tagTailL : List Char := "\"></script>".toList

/-- The canonical module script tag pointing at `path`. -/
def canonTagL (path : List Char) : List Char := tagHeadL ++ path ++ tagTailL

def srcUiPreL : List Char := "/src/ui/".toList

/-- Try a continuation on a list of candidate positions, first success wins. -/
def tryTails (k : List Char → Option (List Char)) : List (List Char) → Option (List Char)
  | [] => none
  | s :: ss =>
    match k s with
    | some r => some r
    | none => tryTails k ss

/-- The candidate positions a greedy `class*` explores, most-consumed first. -/
def okSuffixes (ok : Char → Bool) : List Char → List (List Char)
  | [] => [[]]
  | c :: cs => if ok c then okSuffixes ok cs ++ [c :: cs] else [c :: cs]

/-- The positions inside a consumed run `R`, shortest suffix of `R` first. -/
def growPre (rest : List Char) : List Char → List (List Char)
  | [] => []
  | c :: R' => growPre rest R' ++ [c :: (R' ++ rest)]

theorem tryTails_append (k : List Char → Option (List Char)) (A B : List (List Char)) :
    tryTails k (A ++ B) =
      match tryTails k A with
      | some r => some r
      | none => tryTails k B := by
  induction A with
  | nil => simp [tryTails]
  | cons s ss ih =>
    rw [List.cons_append, tryTails, tryTails]
    cases k s with
    | some r => rfl
    | none => exact ih

theorem tryTails_all_none (k : List Char → Option (List Char)) (A : List (List Char))
    (h : ∀ s ∈ A, k s = none) : tryTails k A = none := by
  induction A with
  | nil => rfl
  | cons s ss ih =>
    rw [tryTails, h s (List.mem_cons_self _ _)]
    exact ih (fun s' hs' => h s' (List.mem_cons_of_mem s hs'))

theorem starThen_eq (ok : Char → Bool) (k : List Char → Option (List Char)) :
    ∀ l, starThen ok k l = tryTails k (okSuffixes ok l) := by
  intro l
  induction l with
  | nil =>
    rw [starThen, okSuffixes, tryTails]
    cases k [] <;> rfl
  | cons c cs ih =>
    by_cases hc : ok c
    · rw [starThen, if_pos hc, okSuffixes, if_pos hc, tryTails_append, ← ih]
      cases starThen ok k cs with
      | some r => rfl
      | none =>
        rw [tryTails]
        cases k (c :: cs) <;> rfl
    · rw [starThen, if_neg hc, okSuffixes, if_neg hc, tryTails]
      cases k (c :: cs) <;> rfl

theorem okSuffixes_append_ok (ok : Char → Bool) :
    ∀ (R rest : List Char), (∀ c ∈ R, ok c = true) →
      okSuffixes ok (R ++ rest) = okSuffixes ok rest ++ growPre rest R := by
  intro R
  induction R with
  | nil => intro rest _; simp [growPre]
  | cons c R' ih =>
    intro rest h
    rw [List.cons_append, okSuffixes, if_pos (h c (List.mem_cons_self _ _)),
      ih rest (fun c' hc' => h c' (List.mem_cons_of_mem c hc')), growPre,
      List.append_assoc]

theorem okSuffixes_stop_nil (ok : Char → Bool) : okSuffixes ok [] = [[]] := rfl

theorem okSuffixes_stop_cons (ok : Char → Bool) (b : Char) (l : List Char)
    (hb : ok b = false) : okSuffixes ok (b :: l) = [b :: l] := by
  rw [okSuffixes, if_neg (by rw [hb]; exact Bool.false_ne_true)]

theorem growPre_mem (rest : List Char) :
    ∀ (X s : List Char), s ∈ growPre rest X ↔ ∃ q, q ≠ [] ∧ q <:+ X ∧ s = q ++ rest := by
  intro X
  induction X with
  | nil =>
    intro s
    simp only [growPre, List.not_mem_nil, false_iff]
    rintro ⟨q, hq, hsuf, _⟩
    exact hq (List.eq_nil_of_suffix_nil hsuf)
  | cons c X' ih =>
    intro s
    rw [growPre, List.mem_append, List.mem_singleton, ih]
    constructor
    · rintro (⟨q, hq, hsuf, hs⟩ | hs)
      · exact ⟨q, hq, hsuf.trans (List.suffix_cons c X'), hs⟩
      · exact ⟨c :: X', by simp, List.suffix_refl _, by rw [hs, List.cons_append]⟩
    · rintro ⟨q, hq, hsuf, hs⟩
      rcases hsuf with ⟨t, ht⟩
      cases t with
      | nil =>
        right
        rw [List.nil_append] at ht
        rw [hs, ht, List.cons_append]
      | cons a t' =>
        left
        refine ⟨q, hq, ⟨t', ?_⟩, hs⟩
        have := congrArg List.tail ht
        simpa using this

theorem litCI_of_matchesCI : ∀ (pat pre l : List Char), matchesCI pat pre = true →
    litCI pat (pre ++ l) = some l := by
  intro pat
  induction pat with
  | nil =>
    intro pre l h
    cases pre with
    | nil => rfl
    | cons c cs => simp [matchesCI] at h
  | cons p ps ih =>
    intro pre l h
    cases pre with
    | nil => simp [matchesCI] at h
    | cons c cs =>
      rw [matchesCI] at h
      by_cases hc : c.toLower = p.toLower
      · rw [List.cons_append, litCI, if_pos hc]
        rw [if_pos hc] at h
        exact ih cs l h
      · rw [if_neg hc] at h
        cases h

theorem litCI_eq_some : ∀ (pat l r : List Char), litCI pat l = some r →
    ∃ pre, matchesCI pat pre = true ∧ l = pre ++ r := by
  intro pat
  induction pat with
  | nil =>
    intro l r h
    rw [litCI] at h
    exact ⟨[], rfl, by rw [List.nil_append, Option.some.inj h]⟩
  | cons p ps ih =>
    intro l r h
    cases l with
    | nil => cases h
    | cons c cs =>
      rw [litCI] at h
      by_cases hc : c.toLower = p.toLower
      · rw [if_pos hc] at h
        obtain ⟨pre', hm, he⟩ := ih cs r h
        exact ⟨c :: pre', by rw [matchesCI, if_pos hc]; exact hm, by rw [he, List.cons_append]⟩
      · rw [if_neg hc] at h
        cases h

theorem litCI_first_mismatch (p c : Char) (ps l : List Char) (h : ¬ c.toLower = p.toLower) :
    litCI (p :: ps) (c :: l) = none := by
  rw [litCI, if_neg h]

theorem matchesCI_mem : ∀ (pat pre : List Char), matchesCI pat pre = true →
    ∀ c ∈ pre, ∃ p ∈ pat, c.toLower = p.toLower := by
  intro pat
  induction pat with
  | nil =>
    intro pre h c hc
    cases pre with
    | nil => simp at hc
    | cons a as => simp [matchesCI] at h
  | cons p ps ih =>
    intro pre h c hc
    cases pre with
    | nil => simp at hc
    | cons a as =>
      rw [matchesCI] at h
      by_cases ha : a.toLower = p.toLower
      · rw [if_pos ha] at h
        rcases List.mem_cons.mp hc with hc | hc
        · exact ⟨p, List.mem_cons_self _ _, hc ▸ ha⟩
        · obtain ⟨p', hp', he⟩ := ih as h c hc
          exact ⟨p', List.mem_cons_of_mem p hp', he⟩
      · rw [if_neg ha] at h
        cases h

theorem append_quote_split : ∀ (qp pre r2 tail : List Char),
    qp ++ '"' :: tail = pre ++ r2 →
    (∃ q2, qp = pre ++ q2 ∧ r2 = q2 ++ '"' :: tail) ∨ ('"' ∈ pre) := by
  intro qp
  induction qp with
  | nil =>
    intro pre r2 tail heq
    cases pre with
    | nil => exact Or.inl ⟨[], rfl, heq.symm⟩
    | cons c pre' =>
      rw [List.nil_append, List.cons_append] at heq
      have hc : '"' = c := (List.cons.inj heq).1
      exact Or.inr (hc ▸ List.mem_cons_self c pre')
  | cons a qp' ih =>
    intro pre r2 tail heq
    cases pre with
    | nil => exact Or.inl ⟨a :: qp', rfl, heq.symm⟩
    | cons c pre' =>
      rw [List.cons_append, List.cons_append] at heq
      obtain ⟨hac, htl⟩ := List.cons.inj heq
      rcases ih pre' r2 tail htl with ⟨q2, hq2, hr2⟩ | hmem
      · exact Or.inl ⟨q2, by rw [List.cons_append, hq2, hac], hr2⟩
      · exact Or.inr (List.mem_cons_of_mem c hmem)

theorem suffix_append_cases : ∀ (A B q : List Char), q <:+ A ++ B →
    q <:+ B ∨ ∃ qa, qa <:+ A ∧ qa ≠ [] ∧ q = qa ++ B := by
  intro A
  induction A with
  | nil =>
    intro B q h
    rw [List.nil_append] at h
    exact Or.inl h
  | cons a A' ih =>
    intro B q h
    rcases h with ⟨t, ht⟩
    cases t with
    | nil =>
      rw [List.nil_append] at ht
      exact Or.inr ⟨a :: A', List.suffix_refl _, by simp, by rw [ht, List.cons_append]⟩
    | cons b t' =>
      have htl : t' ++ q = A' ++ B := by
        have := congrArg List.tail ht
        simpa using this
      rcases ih B q ⟨t', htl⟩ with h | ⟨qa, hsuf, hne, he⟩
      · exact Or.inl h
      · exact Or.inr ⟨qa, hsuf.trans (List.suffix_cons a A'), hne, he⟩

theorem suffix_concat_cases (A : List Char) (b : Char) (q : List Char)
    (h : q <:+ A ++ [b]) : q = [] ∨ ∃ qa, qa <:+ A ∧ q = qa ++ [b] := by
  rcases suffix_append_cases A [b] q h with h | ⟨qa, hsuf, _, he⟩
  · rcases h with ⟨t, ht⟩
    cases t with
    | nil => exact Or.inr ⟨[], List.nil_suffix, by simpa using ht⟩
    | cons c t' =>
      left
      have hlen := congrArg List.length ht
      simp only [List.length_append, List.length_cons, List.length_nil] at hlen
      exact List.eq_nil_of_length_eq_zero (by omega)
  · exact Or.inr ⟨qa, hsuf, he⟩

theorem startsWithCI_of_matchesCI_append : ∀ (pat pre r : List Char),
    matchesCI pat pre = true → startsWithCI pat (pre ++ r) = true := by
  intro pat
  induction pat with
  | nil => intro pre r _; rfl
  | cons p ps ih =>
    intro pre r h
    cases pre with
    | nil => simp [matchesCI] at h
    | cons c cs =>
      rw [matchesCI] at h
      by_cases hc : c.toLower = p.toLower
      · rw [if_pos hc] at h
        rw [List.cons_append, startsWithCI, if_pos hc]
        exact ih cs r h
      · rw [if_neg hc] at h
        cases h

theorem containsCI_of_suffix (P q pat : List Char) (hsuf : q <:+ P)
    (hsw : startsWithCI pat q = true) : containsCI P pat = true := by
  induction P with
  | nil =>
    have hq : q = [] := List.eq_nil_of_suffix_nil hsuf
    rw [hq] at hsw
    rw [containsCI]
    exact hsw
  | cons c P' ih =>
    rcases hsuf with ⟨t, ht⟩
    cases t with
    | nil =>
      have hq : q = c :: P' := by simpa using ht
      rw [containsCI]
      simp [hq ▸ hsw]
    | cons a t' =>
      have htl : t' ++ q = P' := by
        have := congrArg List.tail ht
        simpa using this
      rw [containsCI, ih ⟨t', htl⟩]
      cases startsWithCI pat (c :: P') <;> rfl

theorem nonQuote_spec (c : Char) (h : nonQuote c = true) : ¬ c = '"' ∧ ¬ c = '\'' := by
  rw [nonQuote] at h
  by_cases h1 : c = '"'
  · rw [if_pos h1] at h; cases h
  · rw [if_neg h1] at h
    by_cases h2 : c = '\''
    · rw [if_pos h2] at h; cases h
    · exact ⟨h1, h2⟩

theorem quoteThen_dq (k : List Char → Option (List Char)) (cs : List Char) :
    quoteThen k ('"' :: cs) = k cs := by
  simp [quoteThen]

theorem quoteThen_nonquote (k : List Char → Option (List Char)) (c : Char)
    (cs : List Char) (h : nonQuote c = true) : quoteThen k (c :: cs) = none := by
  obtain ⟨h1, h2⟩ := nonQuote_spec c h
  simp [quoteThen, h1, h2]

/-- `type=` cannot match starting inside the quote-free path region: the
continuation demands a quote right after `type=`, which the path cannot
provide, and at the region's end the closing quote is followed by `>`,
which `module` cannot match. -/
theorem pType_fail (qp l : List Char) (hq : ∀ c ∈ qp, nonQuote c = true) :
    pType (qp ++ '"' :: '>' :: l) = none := by
  cases hlit : litCI typeEqL (qp ++ '"' :: '>' :: l) with
  | none => rw [pType, hlit]
  | some r2 =>
    have hstep : pType (qp ++ '"' :: '>' :: l) = quoteThen pModule r2 := by
      rw [pType, hlit]
    rw [hstep]
    obtain ⟨pre, hm, heq⟩ := litCI_eq_some typeEqL _ r2 hlit
    rcases append_quote_split qp pre r2 ('>' :: l) heq with ⟨q2, hq2, hr2⟩ | hmem
    · subst hr2
      cases q2 with
      | nil =>
        rw [List.nil_append, quoteThen_dq, pModule]
        have hmod : litCI moduleL ('>' :: l) = none := rfl
        rw [hmod]
      | cons c q2' =>
        have hc : nonQuote c = true :=
          hq c (by rw [hq2]; exact List.mem_append_right pre (List.mem_cons_self _ _))
        rw [List.cons_append, quoteThen_nonquote _ _ _ hc]
    · obtain ⟨p, hp, hlow⟩ := matchesCI_mem typeEqL pre hm '"' hmem
      have hno : ¬ ∃ p ∈ typeEqL, ('"' : Char).toLower = p.toLower := by decide
      exact absurd ⟨p, hp, hlow⟩ hno

/-- `src=` cannot match starting inside the quote-free path region, provided
the path does not itself end with `src=` there (no `src=` occurrence). -/
theorem pSrc_fail (qp l : List Char) (hq : ∀ c ∈ qp, nonQuote c = true)
    (hnot : matchesCI srcEqL qp = false) :
    pSrc (qp ++ '"' :: '>' :: l) = none := by
  cases hlit : litCI srcEqL (qp ++ '"' :: '>' :: l) with
  | none => rw [pSrc, hlit]
  | some r2 =>
    have hstep : pSrc (qp ++ '"' :: '>' :: l) = quoteThen pPath r2 := by
      rw [pSrc, hlit]
    rw [hstep]
    obtain ⟨pre, hm, heq⟩ := litCI_eq_some srcEqL _ r2 hlit
    rcases append_quote_split qp pre r2 ('>' :: l) heq with ⟨q2, hq2, hr2⟩ | hmem
    · subst hr2
      cases q2 with
      | nil =>
        rw [List.append_nil] at hq2
        rw [hq2, hm] at hnot
        cases hnot
      | cons c q2' =>
        have hc : nonQuote c = true :=
          hq c (by rw [hq2]; exact List.mem_append_right pre (List.mem_cons_self _ _))
        rw [List.cons_append, quoteThen_nonquote _ _ _ hc]
    · obtain ⟨p, hp, hlow⟩ := matchesCI_mem srcEqL pre hm '"' hmem
      have hno : ¬ ∃ p ∈ srcEqL, ('"' : Char).toLower = p.toLower := by decide
      exact absurd ⟨p, hp, hlow⟩ hno

theorem tryTails_cons_none (k : List Char → Option (List Char)) (s : List Char)
    (ss : List (List Char)) (h : k s = none) : tryTails k (s :: ss) = tryTails k ss := by
  simp [tryTails, h]

theorem tryTails_cons_some (k : List Char → Option (List Char)) (s : List Char)
    (ss : List (List Char)) (r : List Char) (h : k s = some r) :
    tryTails k (s :: ss) = some r := by
  simp [tryTails, h]

theorem growPre_cons (rest : List Char) (c : Char) (R' : List Char) :
    growPre rest (c :: R') = growPre rest R' ++ [c :: (R' ++ rest)] := rfl

theorem growPre_append (rest : List Char) : ∀ (A B : List Char),
    growPre rest (A ++ B) = growPre rest B ++ growPre (B ++ rest) A := by
  intro A
  induction A with
  | nil => intro B; simp [growPre]
  | cons c A' ih =>
    intro B
    rw [List.cons_append, growPre_cons, ih B, growPre_cons, List.append_assoc,
      List.append_assoc]

theorem startsWithCI_of_matchesCI (pat q : List Char) (h : matchesCI pat q = true) :
    startsWithCI pat q = true := by
  have := startsWithCI_of_matchesCI_append pat q [] h
  rwa [List.append_nil] at this

theorem starThen_not_ok (ok : Char → Bool) (k : List Char → Option (List Char))
    (c : Char) (cs : List Char) (h : ok c = false) :
    starThen ok k (c :: cs) = k (c :: cs) := by
  simp [starThen, h]

theorem pGt_gt (cs : List Char) : pGt ('>' :: cs) = pWs cs := by
  simp [pGt]

/-- The closing `>\s*</script>` of a canonical tag matches, consuming exactly
up to the end of the tag. -/
theorem pClose_run (suf : List Char) : pClose ('>' :: (closeScriptL ++ suf)) = some suf := by
  rw [pClose, starThen_not_ok nonGt pGt '>' _ (by decide), pGt_gt, pWs]
  rw [show closeScriptL ++ suf = '<' :: ("/script>".toList ++ suf) from rfl]
  rw [starThen_not_ok isWs _ '<' _ (by decide)]
  rw [show ('<' : Char) :: ("/script>".toList ++ suf) = closeScriptL ++ suf from rfl]
  exact litCI_of_matchesCI closeScriptL closeScriptL suf (by decide)

theorem plusThen_cons (ok : Char → Bool) (k : List Char → Option (List Char))
    (c : Char) (cs : List Char) :
    plusThen ok k (c :: cs) = if ok c then starThen ok k cs else none := rfl

theorem tryTails_skip_all (k : List Char → Option (List Char)) (A B : List (List Char))
    (hA : ∀ s ∈ A, k s = none) : tryTails k (A ++ B) = tryTails k B := by
  rw [tryTails_append, tryTails_all_none k A hA]

/-- The `[^"']+["']...` part matches the whole path `P` then the closing quote. -/
theorem pPath_run (P suf : List Char) (hP : P ≠ []) (hq : ∀ c ∈ P, nonQuote c = true) :
    pPath (P ++ '"' :: '>' :: (closeScriptL ++ suf)) = some suf := by
  cases P with
  | nil => exact absurd rfl hP
  | cons p0 P' =>
    rw [List.cons_append, pPath, plusThen_cons,
      if_pos (hq p0 (List.mem_cons_self _ _)), starThen_eq,
      okSuffixes_append_ok nonQuote P' _
        (fun c hc => hq c (List.mem_cons_of_mem p0 hc)),
      okSuffixes_stop_cons nonQuote '"' _ (by decide), List.singleton_append]
    apply tryTails_cons_some
    rw [pAfterPath, quoteThen_dq]
    exact pClose_run suf

/-- `src=["']...` matches at the real `src=` attribute. -/
theorem pSrc_target (P suf : List Char) (hP : P ≠ []) (hq : ∀ c ∈ P, nonQuote c = true) :
    pSrc (srcEqL ++ '"' :: (P ++ '"' :: '>' :: (closeScriptL ++ suf))) = some suf := by
  have hlit : litCI srcEqL (srcEqL ++ '"' :: (P ++ '"' :: '>' :: (closeScriptL ++ suf)))
      = some ('"' :: (P ++ '"' :: '>' :: (closeScriptL ++ suf))) :=
    litCI_of_matchesCI srcEqL srcEqL _ (by decide)
  have hstep : pSrc (srcEqL ++ '"' :: (P ++ '"' :: '>' :: (closeScriptL ++ suf)))
      = quoteThen pPath ('"' :: (P ++ '"' :: '>' :: (closeScriptL ++ suf))) := by
    rw [pSrc, hlit]
  rw [hstep, quoteThen_dq]
  exact pPath_run P suf hP hq

/-- The `[^>]*src=...` part of the pattern, started just after the module
attribute of a canonical tag, matches with the real `src=` and consumes
exactly to the end of the tag, for any quote-free, `>`-free path `P` that has
no case-insensitive occurrence of `src=`. -/
theorem pMidStar_run (P suf : List Char) (hP : P ≠ [])
    (hq : ∀ c ∈ P, nonQuote c = true) (hgt : ∀ c ∈ P, nonGt c = true)
    (hsrc : containsCI P srcEqL = false) :
    pMidStar ((' ' :: (srcEqL ++ '"' :: (P ++ ['"'])))
      ++ ('>' :: (closeScriptL ++ suf))) = some suf := by
  have hok : ∀ c ∈ (' ' :: (srcEqL ++ '"' :: (P ++ ['"']))), nonGt c = true := by
    intro c hc
    rcases List.mem_cons.mp hc with h | h
    · rw [h]; rfl
    · rcases List.mem_append.mp h with h | h
      · revert h
        have hall : ∀ x ∈ srcEqL, nonGt x = true := by decide
        exact hall c
      · rcases List.mem_cons.mp h with h | h
        · rw [h]; rfl
        · rcases List.mem_append.mp h with h | h
          · exact hgt c h
          · rw [List.mem_singleton.mp h]; rfl
  have hA : ∀ s ∈ growPre ('>' :: (closeScriptL ++ suf)) (P ++ ['"']), pSrc s = none := by
    intro s hs
    obtain ⟨q, hqne, hqsuf, hseq⟩ := (growPre_mem _ _ s).mp hs
    rcases suffix_concat_cases P '"' q hqsuf with h0 | ⟨qp, hqp, hqeq⟩
    · exact absurd h0 hqne
    · have hqp' : ∀ c ∈ qp, nonQuote c = true := by
        intro c hc
        rcases hqp with ⟨t, ht⟩
        exact hq c (by rw [← ht]; exact List.mem_append_right t hc)
      have hnot : matchesCI srcEqL qp = false := by
        cases hm : matchesCI srcEqL qp
        · rfl
        · exfalso
          have hcon := containsCI_of_suffix P qp srcEqL hqp
            (startsWithCI_of_matchesCI _ _ hm)
          rw [hsrc] at hcon
          exact Bool.false_ne_true hcon
      have hshape : s = qp ++ '"' :: '>' :: (closeScriptL ++ suf) := by
        rw [hseq, hqeq, List.append_assoc, List.singleton_append]
      rw [hshape]
      exact pSrc_fail qp (closeScriptL ++ suf) hqp' hnot
  have hB : ∀ s ∈ growPre ((P ++ ['"']) ++ ('>' :: (closeScriptL ++ suf)))
      ("rc=\"".toList), pSrc s = none := by
    intro s hs
    obtain ⟨q, hqne, hqsuf, hseq⟩ := (growPre_mem _ _ s).mp hs
    cases q with
    | nil => exact absurd rfl hqne
    | cons c q' =>
      have hcmem : c ∈ ("rc=\"".toList) := by
        rcases hqsuf with ⟨t, ht⟩
        rw [← ht]
        exact List.mem_append_right t (List.mem_cons_self _ _)
      have hcne : ¬ (c.toLower = 's'.toLower) := by
        have hall : ∀ x ∈ ("rc=\"".toList), ¬ (x.toLower = 's'.toLower) := by decide
        exact hall c hcmem
      have hl : litCI srcEqL s = none := by
        rw [hseq, List.cons_append, show srcEqL = 's' :: ("rc=".toList) from rfl]
        exact litCI_first_mismatch _ _ _ _ hcne
      rw [pSrc, hl]
  have hT : pSrc ('s' :: ("rc=\"".toList ++ ((P ++ ['"'])
      ++ ('>' :: (closeScriptL ++ suf))))) = some suf := by
    have hre : ('s' : Char) :: ("rc=\"".toList ++ ((P ++ ['"'])
        ++ ('>' :: (closeScriptL ++ suf))))
        = srcEqL ++ '"' :: (P ++ '"' :: '>' :: (closeScriptL ++ suf)) := by
      simp only [show ("rc=\"".toList) = ("rc=".toList) ++ ['"'] from (by decide),
        show srcEqL = 's' :: ("rc=".toList) from rfl, List.append_assoc,
        List.singleton_append, List.cons_append, List.nil_append]
    rw [hre]
    exact pSrc_target P suf hP hq
  rw [pMidStar, starThen_eq, okSuffixes_append_ok nonGt _ _ hok,
    okSuffixes_stop_cons nonGt '>' _ (by decide), List.singleton_append,
    tryTails_cons_none _ _ _ (show pSrc ('>' :: (closeScriptL ++ suf)) = none from rfl),
    growPre_cons,
    show srcEqL ++ '"' :: (P ++ ['"']) = ("src=\"".toList) ++ (P ++ ['"']) by
      rw [show ("src=\"".toList) = srcEqL ++ ['"'] from (by decide), List.append_assoc,
        List.singleton_append],
    growPre_append,
    show ("src=\"".toList) = 's' :: ("rc=\"".toList) from rfl,
    growPre_cons, List.append_assoc, tryTails_skip_all _ _ _ hA, List.append_assoc,
    tryTails_skip_all _ _ _ hB, List.singleton_append]
  exact tryTails_cons_some _ _ _ _ hT

/-- `type=["']module["']...` matches at the real `type` attribute of a
canonical tag and consumes exactly to the end of the tag. -/
theorem pType_target (P suf : List Char) (hP : P ≠ [])
    (hq : ∀ c ∈ P, nonQuote c = true) (hgt : ∀ c ∈ P, nonGt c = true)
    (hsrc : containsCI P srcEqL = false) :
    pType (("type=\"module\"".toList) ++ ((' ' :: (srcEqL ++ '"' :: (P ++ ['"'])))
      ++ ('>' :: (closeScriptL ++ suf)))) = some suf := by
  have hin : ("type=\"module\"".toList) ++ ((' ' :: (srcEqL ++ '"' :: (P ++ ['"'])))
      ++ ('>' :: (closeScriptL ++ suf)))
      = typeEqL ++ ('"' :: (moduleL ++ ('"' :: ((' ' :: (srcEqL ++ '"' :: (P ++ ['"'])))
        ++ ('>' :: (closeScriptL ++ suf)))))) := by
    rw [show ("type=\"module\"".toList) = typeEqL ++ '"' :: (moduleL ++ ['"'])
      from (by decide)]
    simp only [List.append_assoc, List.cons_append, List.singleton_append, List.nil_append]
  have hlit1 : litCI typeEqL (("type=\"module\"".toList)
      ++ ((' ' :: (srcEqL ++ '"' :: (P ++ ['"']))) ++ ('>' :: (closeScriptL ++ suf))))
      = some ('"' :: (moduleL ++ ('"' :: ((' ' :: (srcEqL ++ '"' :: (P ++ ['"'])))
        ++ ('>' :: (closeScriptL ++ suf)))))) := by
    rw [hin]
    exact litCI_of_matchesCI _ typeEqL _ (by decide)
  have hstep : pType (("type=\"module\"".toList)
      ++ ((' ' :: (srcEqL ++ '"' :: (P ++ ['"']))) ++ ('>' :: (closeScriptL ++ suf))))
      = quoteThen pModule ('"' :: (moduleL ++ ('"' :: ((' ' :: (srcEqL ++ '"' :: (P ++ ['"'])))
        ++ ('>' :: (closeScriptL ++ suf)))))) := by
    rw [pType, hlit1]
  rw [hstep, quoteThen_dq]
  have hlit2 : litCI moduleL (moduleL ++ ('"' :: ((' ' :: (srcEqL ++ '"' :: (P ++ ['"'])))
      ++ ('>' :: (closeScriptL ++ suf)))))
      = some ('"' :: ((' ' :: (srcEqL ++ '"' :: (P ++ ['"'])))
        ++ ('>' :: (closeScriptL ++ suf)))) :=
    litCI_of_matchesCI moduleL moduleL _ (by decide)
  have hstep2 : pModule (moduleL ++ ('"' :: ((' ' :: (srcEqL ++ '"' :: (P ++ ['"'])))
      ++ ('>' :: (closeScriptL ++ suf)))))
      = quoteThen pMidStar ('"' :: ((' ' :: (srcEqL ++ '"' :: (P ++ ['"'])))
        ++ ('>' :: (closeScriptL ++ suf)))) := by
    rw [pModule, hlit2]
  rw [hstep2, quoteThen_dq]
  exact pMidStar_run P suf hP hq hgt hsrc

/-- The first `[^>]*type=...` of the pattern, started just after `<script` of a
canonical tag, consumes exactly the single space and matches from the real
`type=`. -/
theorem pTypeStar_run (P suf : List Char) (hP : P ≠ [])
    (hq : ∀ c ∈ P, nonQuote c = true) (hgt : ∀ c ∈ P, nonGt c = true)
    (hsrc : containsCI P srcEqL = false) :
    pTypeStar ((' ' :: (("type=\"module\" src=\"".toList) ++ (P ++ ['"'])))
      ++ ('>' :: (closeScriptL ++ suf))) = some suf := by
  have hok : ∀ c ∈ (' ' :: (("type=\"module\" src=\"".toList) ++ (P ++ ['"']))),
      nonGt c = true := by
    intro c hc
    rcases List.mem_cons.mp hc with h | h
    · rw [h]; rfl
    · rcases List.mem_append.mp h with h | h
      · revert h
        have hall : ∀ x ∈ ("type=\"module\" src=\"".toList), nonGt x = true := by decide
        exact hall c
      · rcases List.mem_append.mp h with h | h
        · exact hgt c h
        · rw [List.mem_singleton.mp h]; rfl
  have hA : ∀ s ∈ growPre ('>' :: (closeScriptL ++ suf)) (P ++ ['"']), pType s = none := by
    intro s hs
    obtain ⟨q, hqne, hqsuf, hseq⟩ := (growPre_mem _ _ s).mp hs
    rcases suffix_concat_cases P '"' q hqsuf with h0 | ⟨qp, hqp, hqeq⟩
    · exact absurd h0 hqne
    · have hqp' : ∀ c ∈ qp, nonQuote c = true := by
        intro c hc
        rcases hqp with ⟨t, ht⟩
        exact hq c (by rw [← ht]; exact List.mem_append_right t hc)
      have hshape : s = qp ++ '"' :: '>' :: (closeScriptL ++ suf) := by
        rw [hseq, hqeq, List.append_assoc, List.singleton_append]
      rw [hshape]
      exact pType_fail qp (closeScriptL ++ suf) hqp'
  have hB : ∀ s ∈ growPre ((P ++ ['"']) ++ ('>' :: (closeScriptL ++ suf)))
      ("ype=\"module\" src=\"".toList), pType s = none := by
    intro s hs
    obtain ⟨q, hqne, hqsuf, hseq⟩ := (growPre_mem _ _ s).mp hs
    cases q with
    | nil => exact absurd rfl hqne
    | cons c q' =>
      have hcmem : c ∈ ("ype=\"module\" src=\"".toList) := by
        rcases hqsuf with ⟨t, ht⟩
        rw [← ht]
        exact List.mem_append_right t (List.mem_cons_self _ _)
      have hcne : ¬ (c.toLower = 't'.toLower) := by
        have hall : ∀ x ∈ ("ype=\"module\" src=\"".toList),
            ¬ (x.toLower = 't'.toLower) := by decide
        exact hall c hcmem
      have hl : litCI typeEqL s = none := by
        rw [hseq, List.cons_append, show typeEqL = 't' :: ("ype=".toList) from rfl]
        exact litCI_first_mismatch _ _ _ _ hcne
      rw [pType, hl]
  have hT : pType ('t' :: ("ype=\"module\" src=\"".toList ++ ((P ++ ['"'])
      ++ ('>' :: (closeScriptL ++ suf))))) = some suf := by
    have hre : ('t' : Char) :: ("ype=\"module\" src=\"".toList ++ ((P ++ ['"'])
        ++ ('>' :: (closeScriptL ++ suf))))
        = ("type=\"module\"".toList) ++ ((' ' :: (srcEqL ++ '"' :: (P ++ ['"'])))
          ++ ('>' :: (closeScriptL ++ suf))) := by
      simp only [show ("ype=\"module\" src=\"".toList)
          = ("ype=\"module\"".toList) ++ (' ' :: (srcEqL ++ ['"'])) from (by decide),
        show ("type=\"module\"".toList) = 't' :: ("ype=\"module\"".toList) from rfl,
        List.append_assoc, List.cons_append, List.singleton_append, List.nil_append]
    rw [hre]
    exact pType_target P suf hP hq hgt hsrc
  rw [pTypeStar, starThen_eq, okSuffixes_append_ok nonGt _ _ hok,
    okSuffixes_stop_cons nonGt '>' _ (by decide), List.singleton_append,
    tryTails_cons_none _ _ _ (show pType ('>' :: (closeScriptL ++ suf)) = none from rfl),
    growPre_cons, growPre_append,
    show ("type=\"module\" src=\"".toList) = 't' :: ("ype=\"module\" src=\"".toList)
      from rfl,
    growPre_cons, List.append_assoc, tryTails_skip_all _ _ _ hA, List.append_assoc,
    tryTails_skip_all _ _ _ hB, List.singleton_append]
  exact tryTails_cons_some _ _ _ _ hT

/-- The embedded regex, applied at the start of a canonical module tag with a
nonempty, quote-free, `>`-free path containing no `src=`, matches exactly the
tag: the remainder is exactly the text after the tag. -/
theorem tagMatch_canon (P suf : List Char) (hP : P ≠ [])
    (hq : ∀ c ∈ P, nonQuote c = true) (hgt : ∀ c ∈ P, nonGt c = true)
    (hsrc : containsCI P srcEqL = false) :
    tagMatch (canonTagL P ++ suf) = some suf := by
  have hin : canonTagL P ++ suf
      = scriptOpenL ++ ((' ' :: (("type=\"module\" src=\"".toList) ++ (P ++ ['"'])))
        ++ ('>' :: (closeScriptL ++ suf))) := by
    rw [canonTagL,
      show tagHeadL = scriptOpenL ++ (' ' :: ("type=\"module\" src=\"".toList))
        from (by decide),
      show tagTailL = '"' :: ('>' :: closeScriptL) from (by decide)]
    simp only [List.append_assoc, List.cons_append, List.singleton_append, List.nil_append]
  have hlit : litCI scriptOpenL (canonTagL P ++ suf)
      = some ((' ' :: (("type=\"module\" src=\"".toList) ++ (P ++ ['"'])))
        ++ ('>' :: (closeScriptL ++ suf))) := by
    rw [hin]
    exact litCI_of_matchesCI _ scriptOpenL _ (by decide)
  have hstep : tagMatch (canonTagL P ++ suf)
      = pTypeStar ((' ' :: (("type=\"module\" src=\"".toList) ++ (P ++ ['"'])))
        ++ ('>' :: (closeScriptL ++ suf))) := by
    rw [tagMatch, hlit]
  rw [hstep]
  exact pTypeStar_run P suf hP hq hgt hsrc

theorem findTag_cons (c : Char) (cs : List Char) :
    findTag (c :: cs) =
      match tagMatch (c :: cs) with
      | some rest => some ([], rest)
      | none =>
        match findTag cs with
        | some (pre, rest) => some (c :: pre, rest)
        | none => none := rfl

theorem startsWithCI_of_append_long : ∀ (pat x y : List Char),
    startsWithCI pat (x ++ y) = true → pat.length ≤ x.length →
    startsWithCI pat x = true := by
  intro pat
  induction pat with
  | nil => intro x y _ _; rfl
  | cons p ps ih =>
    intro x y h hlen
    cases x with
    | nil => simp at hlen
    | cons c x' =>
      rw [List.cons_append, startsWithCI] at h
      rw [startsWithCI]
      by_cases hc : c.toLower = p.toLower
      · rw [if_pos hc] at h ⊢
        exact ih x' y h (by simpa using hlen)
      · rw [if_neg hc] at h
        cases h

theorem startsWithCI_drop_of_append_short : ∀ (x pat y : List Char),
    startsWithCI pat (x ++ y) = true → x.length ≤ pat.length →
    startsWithCI (pat.drop x.length) y = true := by
  intro x
  induction x with
  | nil => intro pat y h _; simpa using h
  | cons c x' ih =>
    intro pat y h hlen
    cases pat with
    | nil => simp at hlen
    | cons p ps =>
      rw [List.cons_append, startsWithCI] at h
      by_cases hc : c.toLower = p.toLower
      · rw [if_pos hc] at h
        rw [List.length_cons, List.drop_succ_cons]
        exact ih ps y h (by simpa using hlen)
      · rw [if_neg hc] at h
        cases h

/-- No module-tag match can start inside a prefix that contains no
(case-insensitive) `<script`, when the text after the prefix starts with `<`
followed by the canonical tag: the leftmost match is exactly at the tag. -/
theorem findTag_prepend (pre l' rest : List Char)
    (hpre : containsCI pre scriptOpenL = false)
    (hm : tagMatch ('<' :: l') = some rest) :
    findTag (pre ++ ('<' :: l')) = some (pre, rest) := by
  induction pre with
  | nil =>
    rw [List.nil_append, findTag_cons, hm]
  | cons c pre' ih =>
    have hsw : startsWithCI scriptOpenL (c :: pre') = false := by
      cases hx : startsWithCI scriptOpenL (c :: pre')
      · rfl
      · rw [containsCI, hx] at hpre
        simp at hpre
    have hpre' : containsCI pre' scriptOpenL = false := by
      rw [containsCI, hsw] at hpre
      simpa using hpre
    have hlitnone : litCI scriptOpenL ((c :: pre') ++ ('<' :: l')) = none := by
      cases hlit : litCI scriptOpenL ((c :: pre') ++ ('<' :: l'))
      · rfl
      · exfalso
        obtain ⟨preM, hmm, heq⟩ := litCI_eq_some _ _ _ hlit
        have hswt : startsWithCI scriptOpenL ((c :: pre') ++ ('<' :: l')) = true := by
          rw [heq]
          exact startsWithCI_of_matchesCI_append _ _ _ hmm
        by_cases hlen : scriptOpenL.length ≤ (c :: pre').length
        · have := startsWithCI_of_append_long scriptOpenL (c :: pre') ('<' :: l') hswt hlen
          rw [hsw] at this
          exact Bool.false_ne_true this
        · have h7 : scriptOpenL.length = 7 := rfl
          have hlt : (c :: pre').length < 7 := by omega
          have hlen' : (c :: pre').length ≤ scriptOpenL.length := by omega
          have hdrop := startsWithCI_drop_of_append_short (c :: pre') scriptOpenL
            ('<' :: l') hswt hlen'
          have hdropne : scriptOpenL.drop (c :: pre').length ≠ [] := by
            intro hnil
            have h0 := congrArg List.length hnil
            rw [List.length_drop, h7] at h0
            simp only [List.length_nil] at h0
            omega
          obtain ⟨p, ps, hd⟩ := List.exists_cons_of_ne_nil hdropne
          have hpmem : p ∈ ("script".toList) := by
            have h1 : scriptOpenL.drop (c :: pre').length
                = ("script".toList).drop pre'.length := by
              rw [show (c :: pre').length = pre'.length + 1 from rfl,
                show scriptOpenL = '<' :: ("script".toList) from rfl,
                List.drop_succ_cons]
            have h2 : ("script".toList).drop pre'.length <:+ ("script".toList) :=
              List.drop_suffix _ _
            rcases h2 with ⟨t, ht⟩
            have hpd : p ∈ ("script".toList).drop pre'.length := by
              rw [← h1, hd]
              exact List.mem_cons_self _ _
            rw [← ht]
            exact List.mem_append_right t hpd
          have hne : ¬ (('<' : Char).toLower = p.toLower) := by
            have hall : ∀ x ∈ ("script".toList), ¬ (('<' : Char).toLower = x.toLower) := by
              decide
            exact hall p hpmem
          rw [hd, startsWithCI, if_neg hne] at hdrop
          exact Bool.false_ne_true hdrop
    have htm : tagMatch ((c :: pre') ++ ('<' :: l')) = none := by
      rw [tagMatch, hlitnone]
    rw [List.cons_append, findTag_cons]
    rw [List.cons_append] at htm
    rw [htm, ih hpre']

theorem relScript_toList (entry : String) :
    (relScript entry).toList = canonTagL (srcUiPreL ++ entry.toList) := by
  rw [relScript, canonTagL]
  show (("<script type=\"module\" src=\"/src/ui/" ++ entry) ++ "\"></script>").data
    = tagHeadL ++ (srcUiPreL ++ entry.data) ++ tagTailL
  rw [String.data_append, String.data_append]
  rw [show ("<script type=\"module\" src=\"/src/ui/" : String).data
    = tagHeadL ++ srcUiPreL from (by decide)]
  rw [show ("\"></script>" : String).data = tagTailL from rfl]
  simp only [List.append_assoc]

/-- The leftmost regex match in `pre ++ canonical-tag ++ suf` is exactly the
tag, when `pre` contains no case-insensitive `<script`. -/
theorem findTag_canon (pre P suf : List Char)
    (hpre : containsCI pre scriptOpenL = false)
    (hP : P ≠ []) (hq : ∀ c ∈ P, nonQuote c = true)
    (hgt : ∀ c ∈ P, nonGt c = true) (hsrc : containsCI P srcEqL = false) :
    findTag (pre ++ (canonTagL P ++ suf)) = some (pre, suf) := by
  have hc : canonTagL P ++ suf
      = '<' :: (("script type=\"module\" src=\"".toList) ++ (P ++ (tagTailL ++ suf))) := by
    rw [canonTagL,
      show tagHeadL = '<' :: ("script type=\"module\" src=\"".toList) from rfl]
    simp only [List.append_assoc, List.cons_append]
  have hm : tagMatch ('<' :: (("script type=\"module\" src=\"".toList)
      ++ (P ++ (tagTailL ++ suf)))) = some suf := by
    rw [← hc]
    exact tagMatch_canon P suf hP hq hgt hsrc
  have := findTag_prepend pre (("script type=\"module\" src=\"".toList)
    ++ (P ++ (tagTailL ++ suf))) suf hpre hm
  rw [← hc] at this
  exact this

/-- The existing-document rewrite replaces a canonical tag (with a clean path)
by the canonical tag for the detected entry, leaving everything else
byte-identical. -/
theorem rewriteIndexHtml_replaces (pre P suf : List Char) (entry : String)
    (hpre : containsCI pre scriptOpenL = false)
    (hP : P ≠ []) (hq : ∀ c ∈ P, nonQuote c = true)
    (hgt : ∀ c ∈ P, nonGt c = true) (hsrc : containsCI P srcEqL = false) :
    rewriteIndexHtml entry (pre ++ (canonTagL P ++ suf))
      = pre ++ ((relScript entry).toList ++ suf) := by
  have hfind : findTag (pre ++ (canonTagL P ++ suf)) = some (pre, suf) :=
    findTag_canon pre P suf hpre hP hq hgt hsrc
  have htest : testTag (pre ++ (canonTagL P ++ suf)) = true := by
    rw [testTag, hfind]
    rfl
  have hrw : rewriteIndexHtml entry (pre ++ (canonTagL P ++ suf))
      = replaceFirstTag (pre ++ (canonTagL P ++ suf)) ((relScript entry).toList) := by
    rw [rewriteIndexHtml]
    simp only [htest, if_true]
  rw [hrw, replaceFirstTag, hfind]
  show pre ++ (relScript entry).toList ++ suf = pre ++ ((relScript entry).toList ++ suf)
  rw [List.append_assoc]

theorem srcUi_entry_ne_nil (entry : String) : srcUiPreL ++ entry.toList ≠ [] := by
  intro h
  have hl := congrArg List.length h
  rw [List.length_append] at hl
  have h8 : srcUiPreL.length = 8 := rfl
  simp only [List.length_nil] at hl
  omega

/-- C7: patching a document consisting of a single canonical module script tag
pointing at an old path (the surrounding text containing no case-insensitive
`<script`, the paths quote-free, `>`-free and free of `src=`) replaces exactly
that tag by the canonical tag pointing at `/src/ui/<entry>`; the result again
has exactly one module script tag — the new one, found at the same place — and
patching the result again with the same entry leaves it byte-identical. -/
theorem rewriteIndexHtml_anchor (pre suf oldPath : List Char) (entry : String)
    (hpre : containsCI pre scriptOpenL = false)
    (_hsuf : containsCI suf scriptOpenL = false)
    (hP : oldPath ≠ []) (hq : ∀ c ∈ oldPath, nonQuote c = true)
    (hgt : ∀ c ∈ oldPath, nonGt c = true)
    (hsrc : containsCI oldPath srcEqL = false)
    (hq' : ∀ c ∈ srcUiPreL ++ entry.toList, nonQuote c = true)
    (hgt' : ∀ c ∈ srcUiPreL ++ entry.toList, nonGt c = true)
    (hsrc' : containsCI (srcUiPreL ++ entry.toList) srcEqL = false) :
    rewriteIndexHtml entry (pre ++ (canonTagL oldPath ++ suf))
      = pre ++ (canonTagL (srcUiPreL ++ entry.toList) ++ suf) ∧
    findTag (pre ++ (canonTagL (srcUiPreL ++ entry.toList) ++ suf))
      = some (pre, suf) ∧
    rewriteIndexHtml entry (pre ++ (canonTagL (srcUiPreL ++ entry.toList) ++ suf))
      = pre ++ (canonTagL (srcUiPreL ++ entry.toList) ++ suf) := by
  have hne := srcUi_entry_ne_nil entry
  refine ⟨?_, findTag_canon pre _ suf hpre hne hq' hgt' hsrc', ?_⟩
  · rw [rewriteIndexHtml_replaces pre oldPath suf entry hpre hP hq hgt hsrc,
      relScript_toList]
  · rw [rewriteIndexHtml_replaces pre _ suf entry hpre hne hq' hgt' hsrc',
      relScript_toList]

/-- Witness for `rewriteIndexHtml_anchor` at the spec's own example: a document
whose single module tag points at `/old/entry.js`, patched toward entry
`main.tsx`. -/
theorem rewriteIndexHtml_anchor_witness :
    rewriteIndexHtml (r"main.tsx") (("<html><body>".toList)
        ++ (canonTagL ("/old/entry.js".toList) ++ ("</body></html>".toList)))
      = ("<html><body>".toList)
        ++ (canonTagL (srcUiPreL ++ (r"main.tsx" : String).toList)
          ++ ("</body></html>".toList)) ∧
    rewriteIndexHtml (r"main.tsx") (("<html><body>".toList)
        ++ (canonTagL (srcUiPreL ++ (r"main.tsx" : String).toList)
          ++ ("</body></html>".toList)))
      = ("<html><body>".toList)
        ++ (canonTagL (srcUiPreL ++ (r"main.tsx" : String).toList)
          ++ ("</body></html>".toList)) :=
  ⟨(rewriteIndexHtml_anchor ("<html><body>".toList) ("</body></html>".toList)
      ("/old/entry.js".toList) (r"main.tsx") (by decide) (by decide) (by decide)
      (by decide) (by decide) (by decide) (by decide) (by decide) (by decide)).1,
   (rewriteIndexHtml_anchor ("<html><body>".toList) ("</body></html>".toList)
      ("/old/entry.js".toList) (r"main.tsx") (by decide) (by decide) (by decide)
      (by decide) (by decide) (by decide) (by decide) (by decide) (by decide)).2.2⟩

/-- `MAIN_TS_CONTENT` of setup.mjs (opaque payload). -/
def MAIN_TS_CONTENT : String :=
  "import \x7b app, BrowserWindow \x7d from \"electron\";\nimport path from \"path\";\nimport fs from \"fs\";\nimport \x7b fileURLToPath \x7d from \"url\";\n\nconst __filename = fileURLToPath(import.meta.url);\nconst __dirname = path.dirname(__filename);\n\n// Define paths for different build environments\nconst DIST_PATH = app.isPackaged\n  ? path.join(__dirname, \"../dist-react\")\n  : path.join(__dirname, \"../../dist-react\");\n\nconst PUBLIC_PATH = app.isPackaged\n  ? path.join(process.resourcesPath, \"app\", \"public\")\n  : path.join(__dirname, \"../../public\");\n\n// Set environment variables\nprocess.env.DIST = DIST_PATH;\nprocess.env.PUBLIC = PUBLIC_PATH;\nprocess.env.VITE_DEV_SERVER_URL = process.env.VITE_DEV_SERVER_URL || \"\";\nprocess.env.NODE_ENV = process.env.NODE_ENV || \"production\";\n\nlet win: BrowserWindow | null = null;\nconst VITE_DEV_SERVER_URL = process.env.VITE_DEV_SERVER_URL;\n\nfunction createWindow() \x7b\n  const iconPath = path.join(\n    app.isPackaged ? PUBLIC_PATH : path.join(__dirname, \"../../public\"),\n    process.platform === \"win32\" ? \"favicon.ico\" : \"icon.png\"\n  );\n\n  win = new BrowserWindow(\x7b\n    width: 1200,\n    height: 800,\n    icon: iconPath,\n    webPreferences: \x7b\n      nodeIntegration: false,\n      contextIsolation: true,\n      preload: path.join(__dirname, \"preload.js\"),\n      devTools: !app.isPackaged,\n    \x7d,\n  \x7d);\n\n  win.setMenuBarVisibility(false);\n  try \x7b win.setMenu(null); \x7d catch \x7b /* ignore */ \x7d\n\n  if (VITE_DEV_SERVER_URL) \x7b\n    win.loadURL(VITE_DEV_SERVER_URL);\n  \x7d else \x7b\n    const indexPath = path.join(DIST_PATH, \"index.html\");\n    console.log(\"Loading index.html from:\", indexPath);\n\n    if (fs.existsSync(indexPath)) \x7b\n      win.loadFile(indexPath);\n    \x7d else \x7b\n      console.error(\"index.html not found at:\", indexPath);\n    \x7d\n  \x7d\n\x7d\n\napp.on(\"window-all-closed\", () => \x7b\n  win = null;\n  if (process.platform !== \"darwin\") \x7b\n    app.quit();\n  \x7d\n\x7d);\n\napp.whenReady().then(createWindow);\n\napp.on(\"activate\", () => \x7b\n  if (BrowserWindow.getAllWindows().length === 0) \x7b\n    createWindow();\n  \x7d\n\x7d);\n"

/-- `PRELOAD_TS_CONTENT` of setup.mjs (opaque payload). -/
def PRELOAD_TS_CONTENT : String :=
  "import \x7b contextBridge, ipcRenderer \x7d from \"electron\";\n\nconst electronAPI = \x7b\n  ipcRenderer: \x7b\n    send: (channel: string, data: any) => ipcRenderer.send(channel, data),\n    on: (channel: string, func: (...args: any[]) => void) =>\n      ipcRenderer.on(channel, (_event, ...args) => func(...args)),\n    once: (channel: string, func: (...args: any[]) => void) =>\n      ipcRenderer.once(channel, (_event, ...args) => func(...args)),\n    removeListener: (channel: string, func: (...args: any[]) => void) =>\n      ipcRenderer.removeListener(channel, func),\n  \x7d,\n\x7d;\n\ncontextBridge.exposeInMainWorld(\"electron\", electronAPI);\n\nipcRenderer.on(\"main-process-message\", (_event, message) => \x7b\n  console.log(\"[Receive Main-process message]:\", message);\n\x7d);\n\nconsole.log(\"Preload script loaded!\");\n"

/-- `JSON.stringify(TSCONFIG_ELECTRON_CONTENT, null, 2)` of setup.mjs. -/
def TSCONFIG_ELECTRON_STR : String :=
  "\x7b\n  \"extends\": \"./tsconfig.node.json\",\n  \"compilerOptions\": \x7b\n    \"outDir\": \"src/electron\",\n    \"lib\": [\n      \"ES2022\"\n    ],\n    \"target\": \"ES2022\",\n    \"module\": \"NodeNext\",\n    \"moduleResolution\": \"NodeNext\",\n    \"allowSyntheticDefaultImports\": true,\n    \"esModuleInterop\": true,\n    \"skipLibCheck\": true,\n    \"strict\": true,\n    \"resolveJsonModule\": true,\n    \"noEmit\": true,\n    \"allowImportingTsExtensions\": true\n  \x7d,\n  \"include\": [\n    \"src/electron/**/*.ts\"\n  ],\n  \"exclude\": [\n    \"node_modules\",\n    \"dist-react\",\n    \"src/electron/main.ts\"\n  ]\n\x7d"

/-- `VITE_ELECTRON_CONTENT` of setup.mjs (opaque payload). -/
def VITE_ELECTRON_CONTENT : String :=
  "import \x7b defineConfig \x7d from 'vite';\nimport react from '@vitejs/plugin-react';\nimport electron from 'vite-plugin-electron';\nimport renderer from 'vite-plugin-electron-renderer';\nimport path from 'path';\n\nexport default defineConfig(\x7b\n  base: './',\n  plugins: [\n    react(),\n    electron([\n      \x7b\n        entry: 'src/electron/main.ts',\n        onstart(args) \x7b args.reload(); \x7d,\n        vite: \x7b\n          build: \x7b\n            sourcemap: true,\n            minify: false,\n            outDir: 'src/electron',\n            rollupOptions: \x7b external: ['electron'] \x7d,\n          \x7d,\n        \x7d,\n      \x7d,\n      \x7b\n        entry: 'src/electron/preload.ts',\n        onstart(args) \x7b args.reload(); \x7d,\n        vite: \x7b\n          build: \x7b\n            sourcemap: 'inline',\n            minify: false,\n            outDir: 'src/electron',\n            rollupOptions: \x7b external: ['electron'] \x7d,\n          \x7d,\n        \x7d,\n      \x7d,\n    ]),\n    renderer(),\n  ],\n  resolve: \x7b alias: \x7b '@': path.resolve(__dirname, './src') \x7d \x7d,\n  optimizeDeps: \x7b exclude: ['lucide-react'] \x7d,\n  clearScreen: false,\n\x7d);\n"

/-- `VITE_RENDERER_CONTENT` of setup.mjs (opaque payload). -/
def VITE_RENDERER_CONTENT : String :=
  "import path from 'path';\nimport react from '@vitejs/plugin-react';\nimport \x7b defineConfig \x7d from 'vite';\n\nexport default defineConfig(\x7b\n  plugins: [react()],\n  base: './',\n  resolve: \x7b alias: \x7b '@': path.resolve(__dirname, './src') \x7d \x7d,\n  optimizeDeps: \x7b exclude: ['lucide-react'] \x7d,\n  build: \x7b outDir: 'dist-react' \x7d,\n\x7d);\n"

/-- `ELECTRON_BUILDER_YML_CONTENT` of setup.mjs (opaque payload). -/
def ELECTRON_BUILDER_YML_CONTENT : String :=
  "appId: com.react.electron.app\nproductName: ElectronizedReactApp\ndirectories:\n  output: release\nfiles:\n  - dist-react/**/*\n  - src/electron/**\n  - public/**\nwin:\n  target:\n    - nsis\nmac:\n  target:\n    - dmg\nlinux:\n  target:\n    - AppImage\n"

/-- The fallback index.html template, before the interpolated script tag. -/
def INDEX_HTML_HEAD : String :=
  "<!doctype html>\n<html lang=\"en\">\n  <head>\n    <meta charset=\"utf-8\"/>\n    <meta name=\"viewport\" content=\"width=device-width,initial-scale=1\"/>\n    <link rel=\"icon\" href=\"/favicon.ico\"/>\n    <title>Electronized App</title>\n  </head>\n  <body>\n    <div id=\"root\"></div>\n    "

/-- The fallback index.html template, after the interpolated script tag. -/
def INDEX_HTML_TAIL : String :=
  "\n  </body>\n</html>\n"

/-- The placeholder 1x1 PNG, represented by its base64 text (binary payload abstracted). -/
def PNG_BASE64 : String :=
  "iVBORw0KGgoAAAANSUhEUgAAAAEAAAABCAQAAAC1HAwCAAAAC0lEQVR4nGNgYAAAAAMAASsJTYQAAAAASUVORK5CYII="

/- ### The main IIFE (src/setup.mjs lines 482-549), as an ordered pipeline

`fail`/uncaught exceptions call `process.exit(1)`: the pipeline stops at the
first error, returning the world at that point together with the error — a
non-zero exit.  The manifest document and its pre-transformation backup are
held structurally in the world (`JSON.parse`/`JSON.stringify` abstracted as
the identity on the structured form); `npm install` is an external
collaborator, modeled only by the `ranInstall` flag. -/

structure World where
  root : FsNode
  pkg : Option Pkg
  pkgBak : Option Pkg
  ranInstall : Bool

def pubName : String := "public"

def pubDirPath : List String := [r"public"]

def pubIcoPath : List String := [r"public", r"favicon.ico"]

def pubPngPath : List String := [r"public", r"icon.png"]

def electronDirPath : List String := [r"src", r"electron"]

def mainTsPath : List String := [r"src", r"electron", r"main.ts"]

def preloadTsPath : List String := [r"src", r"electron", r"preload.ts"]

def indexHtmlPath : List String := [r"index.html"]

def tsconfigElectronPath : List String := [r"tsconfig.electron.json"]

def viteElectronPath : List String := [r"vite.electron.config.ts"]

def viteRendererPath : List String := [r"vite.renderer.config.ts"]

def electronBuilderYmlPath : List String := [r"electron-builder.yml"]

def pkgNotFoundMsg : String := "package.json not found."

/-- `if (fsSync.existsSync(SRC)) await moveSrcToUi(); else warn(...)` — the
orchestrator checks for `src/` itself and merely warns and continues when it
is missing; `moveSrcToUi`'s own fatal check is reached only when `src` exists. -/
def stageMoveSrc (w : World) : Except String World :=
  match getNode srcPath w.root with
  | some _ =>
    match moveSrcToUi w.root with
    | Except.ok r => Except.ok { w with root := r }
    | Except.error e => Except.error e
  | none => Except.ok w

def ensureDirFs (p : List String) (root : FsNode) : FsNode :=
  if (getNode p root).isSome then root else setNode p (FsNode.dir []) root

def stageEnsureElectron (w : World) : Except String World :=
  Except.ok { w with root := ensureDirFs electronDirPath w.root }

def stageWrite (p : List String) (content : String) (force : Bool) (w : World) :
    Except String World :=
  match safeWrite p content force w.root with
  | Except.ok (r, _) => Except.ok { w with root := r }
  | Except.error e => Except.error e

def ENTRY_CANDIDATES : List String :=
  [r"main.tsx", r"main.jsx", r"index.tsx", r"index.jsx",
   r"main.ts", r"index.ts", r"main.js", r"index.js"]

/-- `detectEntry()`: first candidate that exists under `src/ui`, else the
fallback `main.tsx`. -/
def detectEntry (root : FsNode) : String :=
  match ENTRY_CANDIDATES.find? (fun c => (getNode (uiPath ++ [c]) root).isSome) with
  | some c => c
  | none => r"main.tsx"

def INDEX_HTML_FALLBACK (rel : String) : String :=
  INDEX_HTML_HEAD ++ rel ++ INDEX_HTML_TAIL

/-- `patchIndexHtml(entry)`: create the fallback document when index.html is
missing; otherwise rewrite it and persist with `force:true`. -/
def stagePatchIndexHtml (w : World) : Except String World :=
  let entry := detectEntry w.root
  match getNode indexHtmlPath w.root with
  | none =>
    match safeWrite indexHtmlPath (INDEX_HTML_FALLBACK (relScript entry)) false w.root with
    | Except.ok (r, _) => Except.ok { w with root := r }
    | Except.error e => Except.error e
  | some (FsNode.file html) =>
    match safeWrite indexHtmlPath (String.mk (rewriteIndexHtml entry html.toList)) true
        w.root with
    | Except.ok (r, _) => Except.ok { w with root := r }
    | Except.error e => Except.error e
  | some (FsNode.dir _) => Except.error eisdirMsg

/-- `patchPackageJson()`: `fail("package.json not found.")` when the manifest
is missing; otherwise back up the original and persist the merged document. -/
def stagePatchPackageJson (w : World) : Except String World :=
  match w.pkg with
  | none => Except.error pkgNotFoundMsg
  | some pkg => Except.ok { w with pkgBak := some pkg, pkg := some (patchPkg pkg) }

/-- `ensurePublicIcons()`. -/
def stageEnsureIcons (w : World) : Except String World :=
  let r1 := ensureDirFs pubDirPath w.root
  let r2 := if (getNode pubIcoPath r1).isSome then r1
            else setNode pubIcoPath (FsNode.file PNG_BASE64) r1
  let r3 := if (getNode pubPngPath r2).isSome then r2
            else setNode pubPngPath (FsNode.file PNG_BASE64) r2
  Except.ok { w with root := r3 }

def stageInstall (doInstall : Bool) (w : World) : Except String World :=
  Except.ok (if doInstall then { w with ranInstall := true } else w)

/-- Run stages in order; the first error aborts the rest (non-zero exit),
returning the world at the abort point. -/
def runStages : List (World → Except String World) → World → World × Option String
  | [], w => (w, none)
  | s :: ss, w =>
    match s w with
    | Except.ok w' => runStages ss w'
    | Except.error e => (w, some e)

def preStages (force : Bool) : List (World → Except String World) :=
  [stageMoveSrc, stageEnsureElectron,
   stageWrite mainTsPath MAIN_TS_CONTENT force,
   stageWrite preloadTsPath PRELOAD_TS_CONTENT force,
   stagePatchIndexHtml,
   stageWrite tsconfigElectronPath TSCONFIG_ELECTRON_STR force,
   stageWrite viteElectronPath VITE_ELECTRON_CONTENT force,
   stageWrite viteRendererPath VITE_RENDERER_CONTENT force,
   stageWrite electronBuilderYmlPath ELECTRON_BUILDER_YML_CONTENT force]

def mainStages (force doInstall : Bool) : List (World → Except String World) :=
  preStages force ++ [stagePatchPackageJson, stageEnsureIcons, stageInstall doInstall]

/-- The main IIFE: stages in source order, `FORCE`/`DO_INSTALL` from argv. -/
def mainRun (force doInstall : Bool) (w : World) : World × Option String :=
  runStages (mainStages force doInstall) w

/-- An empty manifest document (`{}` parsed). -/
def pkg0 : Pkg := ⟨none, none, none, none, none⟩

/-- A project root with a manifest but no `src/` directory at all. -/
def w0C3 : World := ⟨FsNode.dir [], some pkg0, none, false⟩

/-- A project root with no manifest (package.json missing). -/
def wXC3 : World := ⟨FsNode.dir [], none, none, false⟩

/-- What a successfully-run stage preserves: the `public` subtree, the
manifest, its backup, and the install flag. -/
def Pres (u u' : World) : Prop :=
  getNode pubDirPath u'.root = getNode pubDirPath u.root ∧
  u'.pkg = u.pkg ∧ u'.pkgBak = u.pkgBak ∧ u'.ranInstall = u.ranInstall

theorem pres_refl (u : World) : Pres u u := ⟨rfl, rfl, rfl, rfl⟩

theorem pres_trans {u v w : World} (h1 : Pres u v) (h2 : Pres v w) : Pres u w :=
  ⟨h2.1.trans h1.1, h2.2.1.trans h1.2.1, h2.2.2.1.trans h1.2.2.1,
   h2.2.2.2.trans h1.2.2.2⟩

theorem getNode_pub_setNode (n : String) (q : List String) (v t : FsNode)
    (h : ¬ n = pubName) :
    getNode pubDirPath (setNode (n :: q) v t) = getNode pubDirPath t := by
  have hd := getNode_setNode_diverge [] pubName n [] q v t (fun he => h he.symm)
  rw [show pubDirPath = pubName :: ([] : List String) from rfl]
  simpa using hd

theorem pres_update_root (u : World) (r : FsNode)
    (h : getNode pubDirPath r = getNode pubDirPath u.root) :
    Pres u { u with root := r } := ⟨h, rfl, rfl, rfl⟩

theorem safeWrite_ok_shapes (p : List String) (c : String) (f : Bool) (root r : FsNode)
    (o : WriteOutcome) (h : safeWrite p c f root = Except.ok (r, o)) :
    r = root ∨ r = setNode p (FsNode.file c) root ∨
      ∃ old, r = setNode p (FsNode.file c) (setNode (bakPath p) (FsNode.file old) root) := by
  unfold safeWrite at h
  split at h
  next old _heq =>
    split at h
    · right; left
      exact (congrArg Prod.fst (Except.ok.inj h)).symm
    · split at h
      · left
        exact (congrArg Prod.fst (Except.ok.inj h)).symm
      · right; right
        exact ⟨old, (congrArg Prod.fst (Except.ok.inj h)).symm⟩
  next => simp at h
  next =>
    right; left
    exact (congrArg Prod.fst (Except.ok.inj h)).symm

theorem getNode_pub_safeWrite (n : String) (q : List String) (n' : String)
    (q' : List String) (hb : bakPath (n :: q) = n' :: q') (h1 : ¬ n = pubName)
    (h2 : ¬ n' = pubName) (C : String) (f : Bool) (root r : FsNode) (o : WriteOutcome)
    (h : safeWrite (n :: q) C f root = Except.ok (r, o)) :
    getNode pubDirPath r = getNode pubDirPath root := by
  rcases safeWrite_ok_shapes _ _ _ _ _ _ h with h3 | h3 | ⟨old, h3⟩
  · rw [h3]
  · rw [h3, getNode_pub_setNode n q _ _ h1]
  · rw [h3, getNode_pub_setNode n q _ _ h1, hb, getNode_pub_setNode n' q' _ _ h2]

theorem moveSrcToUi_ok_shapes (root r : FsNode) (h : moveSrcToUi root = Except.ok r) :
    r = root ∨ ∃ X, r = setNode srcPath X root := by
  unfold moveSrcToUi at h
  split at h
  · simp at h
  next srcNode =>
    split at h
    · left; exact (Except.ok.inj h).symm
    · split at h
      · simp at h
      · split at h
        · right
          exact ⟨_, (Except.ok.inj h).symm⟩
        · left; exact (Except.ok.inj h).symm

theorem pres_stageMoveSrc : ∀ u u', stageMoveSrc u = Except.ok u' → Pres u u' := by
  intro u u' h
  unfold stageMoveSrc at h
  split at h
  · split at h
    next r heq =>
      have hu' : u' = { u with root := r } := (Except.ok.inj h).symm
      rw [hu']
      apply pres_update_root
      rcases moveSrcToUi_ok_shapes _ _ heq with h3 | ⟨X, h3⟩
      · rw [h3]
      · rw [h3]
        exact getNode_pub_setNode _ _ _ _ (by decide)
    · simp at h
  · have hu' : u' = u := (Except.ok.inj h).symm
    rw [hu']
    exact pres_refl u

theorem pres_stageEnsureElectron :
    ∀ u u', stageEnsureElectron u = Except.ok u' → Pres u u' := by
  intro u u' h
  have hu' : u' = { u with root := ensureDirFs electronDirPath u.root } :=
    (Except.ok.inj h).symm
  rw [hu']
  apply pres_update_root
  unfold ensureDirFs
  split
  · rfl
  · exact getNode_pub_setNode _ _ _ _ (by decide)

theorem pres_stageWrite (n : String) (q : List String) (n' : String) (q' : List String)
    (hb : bakPath (n :: q) = n' :: q') (h1 : ¬ n = pubName) (h2 : ¬ n' = pubName)
    (C : String) (f : Bool) :
    ∀ u u', stageWrite (n :: q) C f u = Except.ok u' → Pres u u' := by
  intro u u' h
  unfold stageWrite at h
  split at h
  next r o heq =>
    have hu' : u' = { u with root := r } := (Except.ok.inj h).symm
    rw [hu']
    exact pres_update_root u r (getNode_pub_safeWrite n q n' q' hb h1 h2 C f u.root r o heq)
  next => simp at h

theorem pres_stagePatchIndexHtml :
    ∀ u u', stagePatchIndexHtml u = Except.ok u' → Pres u u' := by
  intro u u' h
  unfold stagePatchIndexHtml at h
  simp only [] at h
  split at h
  · split at h
    next r o heq =>
      have hu' : u' = { u with root := r } := (Except.ok.inj h).symm
      rw [hu']
      exact pres_update_root u r
        (getNode_pub_safeWrite "index.html" [] "index.html.bak-electronize" []
          rfl (by decide) (by decide) _ _ u.root r o heq)
    next => simp at h
  next html =>
    split at h
    next r o heq =>
      have hu' : u' = { u with root := r } := (Except.ok.inj h).symm
      rw [hu']
      exact pres_update_root u r
        (getNode_pub_safeWrite "index.html" [] "index.html.bak-electronize" []
          rfl (by decide) (by decide) _ _ u.root r o heq)
    next => simp at h
  · simp at h

theorem runStages_cons_error (s : World → Except String World)
    (ss : List (World → Except String World)) (w : World) (e : String)
    (h : s w = Except.error e) : runStages (s :: ss) w = (w, some e) := by
  simp [runStages, h]

theorem runStages_cons_ok (s : World → Except String World)
    (ss : List (World → Except String World)) (w w' : World)
    (h : s w = Except.ok w') : runStages (s :: ss) w = runStages ss w' := by
  simp [runStages, h]

theorem runStages_pkg_missing (d : Bool) :
    ∀ (ss : List (World → Except String World)) (w : World),
      (∀ s ∈ ss, ∀ u u', s u = Except.ok u' → Pres u u') → w.pkg = none →
      ∃ w' e, runStages (ss ++ [stagePatchPackageJson, stageEnsureIcons, stageInstall d]) w
          = (w', some e) ∧ Pres w w' := by
  intro ss
  induction ss with
  | nil =>
    intro w _ hpkg
    refine ⟨w, pkgNotFoundMsg, ?_, pres_refl w⟩
    rw [List.nil_append]
    apply runStages_cons_error
    rw [stagePatchPackageJson, hpkg]
  | cons s ss ih =>
    intro w hpres hpkg
    rw [List.cons_append]
    cases hs : s w with
    | error e => exact ⟨w, e, runStages_cons_error _ _ _ _ hs, pres_refl w⟩
    | ok w1 =>
      have hp1 : Pres w w1 := hpres s (List.mem_cons_self _ _) w w1 hs
      have hpkg1 : w1.pkg = none := by rw [hp1.2.1, hpkg]
      obtain ⟨w', e, hrun, hp⟩ :=
        ih w1 (fun s' hs' => hpres s' (List.mem_cons_of_mem _ hs')) hpkg1
      exact ⟨w', e, by rw [runStages_cons_ok _ _ _ _ hs]; exact hrun, pres_trans hp1 hp⟩

theorem preStages_pres (force : Bool) :
    ∀ s ∈ preStages force, ∀ u u', s u = Except.ok u' → Pres u u' := by
  intro s hs
  rw [preStages] at hs
  simp only [List.mem_cons, List.not_mem_nil, or_false] at hs
  rcases hs with hs | hs | hs | hs | hs | hs | hs | hs | hs
  · subst hs; exact pres_stageMoveSrc
  · subst hs; exact pres_stageEnsureElectron
  · subst hs
    exact pres_stageWrite "src" [r"electron", r"main.ts"] "src"
      [r"electron", r"main.ts.bak-electronize"] rfl (by decide) (by decide)
      MAIN_TS_CONTENT force
  · subst hs
    exact pres_stageWrite "src" [r"electron", r"preload.ts"] "src"
      [r"electron", r"preload.ts.bak-electronize"] rfl (by decide) (by decide)
      PRELOAD_TS_CONTENT force
  · subst hs; exact pres_stagePatchIndexHtml
  · subst hs
    exact pres_stageWrite "tsconfig.electron.json" []
      "tsconfig.electron.json.bak-electronize" [] rfl (by decide) (by decide)
      TSCONFIG_ELECTRON_STR force
  · subst hs
    exact pres_stageWrite "vite.electron.config.ts" []
      "vite.electron.config.ts.bak-electronize" [] rfl (by decide) (by decide)
      VITE_ELECTRON_CONTENT force
  · subst hs
    exact pres_stageWrite "vite.renderer.config.ts" []
      "vite.renderer.config.ts.bak-electronize" [] rfl (by decide) (by decide)
      VITE_RENDERER_CONTENT force
  · subst hs
    exact pres_stageWrite "electron-builder.yml" []
      "electron-builder.yml.bak-electronize" [] rfl (by decide) (by decide)
      ELECTRON_BUILDER_YML_CONTENT force

/-- Counterexample to C3: with the manifest present but no `src/` directory at
all, the run does NOT abort — it finishes without error, and later stages did
execute (the favicon stage created `public/favicon.ico`). The orchestrator only
warns and skips the move when `src/` is missing. -/
theorem mainRun_missing_src_counterexample :
    getNode srcPath w0C3.root = none ∧
    (mainRun false false w0C3).2 = none ∧
    (getNode pubIcoPath (mainRun false false w0C3).1.root).isSome = true :=
  ⟨rfl, rfl, rfl⟩

/-- C3, amended: a missing manifest (`package.json`) does abort the whole run
with an error, before the manifest is patched or backed up, before the icon
stage touches `public/`, and before any install runs — whatever the rest of the
tree looks like. A missing source directory, however, does not abort: the
orchestrator merely warns and continues (second conjunct, on the concrete
src-less project `w0C3`). -/
theorem mainRun_abort_behavior :
    (∀ (force doInstall : Bool) (w : World), w.pkg = none →
      ∃ w' e, mainRun force doInstall w = (w', some e) ∧
        w'.pkg = none ∧ w'.pkgBak = w.pkgBak ∧ w'.ranInstall = w.ranInstall ∧
        getNode pubDirPath w'.root = getNode pubDirPath w.root) ∧
    (getNode srcPath w0C3.root = none ∧ (mainRun false false w0C3).2 = none) := by
  constructor
  · intro force doInstall w hpkg
    obtain ⟨w', e, hrun, hp⟩ :=
      runStages_pkg_missing doInstall (preStages force) w (preStages_pres force) hpkg
    refine ⟨w', e, ?_, ?_, hp.2.2.1, hp.2.2.2, hp.1⟩
    · simp only [mainRun, mainStages]
      exact hrun
    · rw [hp.2.1, hpkg]
  · exact ⟨rfl, rfl⟩

/-- Instantiation of the amended C3 theorem on a concrete manifest-less
project. -/
theorem mainRun_abort_behavior_witness :
    wXC3.pkg = none ∧
    ∃ w' e, mainRun true false wXC3 = (w', some e) ∧
      w'.pkg = none ∧ w'.pkgBak = wXC3.pkgBak ∧ w'.ranInstall = wXC3.ranInstall ∧
      getNode pubDirPath w'.root = getNode pubDirPath wXC3.root :=
  ⟨rfl, mainRun_abort_behavior.1 true false wXC3 rfl⟩
